import Mathlib

/-!
Verification development for the hc-pdir-vaccine-lookup-table repository.

The repository fetches a FHIR-style bundle of Canadian vaccine nomenclature,
flattens it into a lookup table keyed by vaccine code, and persists the result.
There are two variants of the script: a bilingual one (app.ts) and a simpler
single-language one.  This file gives a shallow embedding of the data model and
of the pure transformation logic of both variants, together with theorems about
the flattening pipeline.

Modelling conventions:
- JavaScript objects used as string-keyed dictionaries are modelled as
  insertion-ordered association lists (`List (String × α)`): assignment to a
  present key updates it in place, assignment to a fresh key appends, and
  `Object.keys` enumerates keys in insertion order.
- Fields that the code accesses defensively (optional chaining, truthiness
  guards, `Array.isArray` checks) are modelled as `Option` so that absent or
  malformed sub-structures are representable; code paths that would throw a
  runtime `TypeError` on such input are modelled with `Except`.
- The `||` fallback on strings in JavaScript treats the empty string as falsy;
  this is modelled explicitly by `jsOrStr`.
-/

namespace NVC

/-- One coded value of a codeable concept (source: `interface Coding`). -/
structure Coding where
  system : String
  code : String
  display : String
  deriving DecidableEq

/-- The `use` descriptor of a designation (source: nested type in `Concept`). -/
structure DesignationUse where
  system : String
  code : String
  display : String
  deriving DecidableEq

/-- A localized display override (source: `designation` entries of `Concept`). -/
structure Designation where
  language : String
  use : Option DesignationUse
  value : String
  deriving DecidableEq

/-- Recursive extension node (source: `interface Extension`).  The url is read
behind a truthiness guard and the child array behind an `Array.isArray` guard,
so both are `Option`; likewise the attached coded value. -/
inductive Extension : Type where
  | mk (url : Option String)
       (extension : Option (List Extension))
       (valueCodeableConcept : Option (Option (List Coding) × String))

/-- Projection: the url of an extension node. -/
def Extension.url : Extension → Option String
  | .mk u _ _ => u

/-- Projection: the child extensions of an extension node. -/
def Extension.extension : Extension → Option (List Extension)
  | .mk _ c _ => c

/-- Projection: the coded value of an extension node, as an optional coding
list paired with the `text` field of the `ValueCodeableConcept`. -/
def Extension.valueCodeableConcept : Extension → Option (Option (List Coding) × String)
  | .mk _ _ v => v

/-- The atomic lookup unit (source: `interface Concept`).  `designation` is
accessed by optional chaining so it is `Option`; the root `extension` array is
`Option` because the input is unvalidated JSON (the interface declares it
required, but nothing checks it at runtime). -/
structure Concept where
  code : String
  display : String
  designation : Option (List Designation)
  extension : Option (List Extension)

/-- One `include` block of a ValueSet compose (source: `compose.include`).  The
flattener reads `include.concept` behind an `Array.isArray` guard. -/
structure Include where
  system : String
  version : String
  concept : Option (List Concept)

/-- The `compose` structure of a ValueSet; the flattener checks
`Array.isArray(resource.compose.include)` so `include` is `Option`. -/
structure Compose where
  «include» : Option (List Include)

/-- Resource metadata (source: `meta` of `ValueSet` and of `Data`). -/
structure MetaInfo where
  versionId : String
  lastUpdated : String
  deriving DecidableEq

/-- A ValueSet resource (source: `interface ValueSet`); only the fields the
scripts read are retained.  `compose` is read behind a truthiness guard. -/
structure ValueSet where
  id : String
  meta : MetaInfo
  compose : Option Compose

/-- One bundle entry wrapping a resource (source: `entry` of `Data`). -/
structure BundleEntry where
  fullUrl : String
  resource : ValueSet

/-- The root bundle document (source: `interface Data`). -/
structure Data where
  meta : MetaInfo
  entry : List BundleEntry

/-- Membership test for the recognized vaccine ValueSet kinds
(source: `isValueSet`). -/
def isValueSet (id : String) : Bool :=
  id == "Generic" || id == "Tradename" || id == "AntigenIgAntitoxin"

/-- Membership test for the Disease resource (source: `isValueSetDisease`). -/
def isValueSetDisease (id : String) : Bool :=
  id == "Disease"

/-- Membership test for the MarketAuthorizationHolder resource
(source: `isValueSetMAH`). -/
def isValueSetMAH (id : String) : Bool :=
  id == "MarketAuthorizationHolder"

/-! ## JavaScript object dictionaries as insertion-ordered association lists -/

/-- Assignment `m[k] = v` on a JavaScript object: update in place when the key
is present, append otherwise. -/
def setKeyG {α : Type} (m : List (String × α)) (k : String) (v : α) :
    List (String × α) :=
  if m.any (fun p => p.1 == k) then
    m.map (fun p => if p.1 == k then (k, v) else p)
  else
    m ++ [(k, v)]

/-- Property read `m[k]` on a JavaScript object: the stored value, or absent. -/
def getKeyG {α : Type} (m : List (String × α)) (k : String) : Option α :=
  (m.find? (fun p => p.1 == k)).map (fun p => p.2)

/-- The string-valued dictionary built by the extension resolver. -/
abbrev AssocMap := List (String × String)

/-- JavaScript `a || b` for an optionally-present string `a`: the empty string
is falsy, so it falls through to `b` just like an absent value. -/
def jsOrStr (a : Option String) (b : String) : String :=
  match a with
  | some s => if s = "" then b else s
  | none => b

/-! ## Extension resolver (source: `getExtensionValueByUrl`, both variants) -/

/-- Strip leading and trailing whitespace from a character list. -/
def trimList (l : List Char) : List Char :=
  ((l.dropWhile Char.isWhitespace).reverse.dropWhile Char.isWhitespace).reverse

/-- JavaScript `String.prototype.trim` (whitespace classification restricted
to the ASCII range, which covers the url strings this program compares). -/
def jsTrim (s : String) : String := String.mk (trimList s.data)

/-- JavaScript `String.prototype.toLowerCase` on the ASCII range. -/
def jsToLower (s : String) : String := String.mk (s.data.map Char.toLower)

/-- The url comparison of the resolver: the node url must be present and
truthy (non-empty) and equal the target after trimming and lowercasing
(source: `extension.url && extension.url.trim().toLowerCase() ===
targetUrl.trim().toLowerCase()`). -/
def urlMatches (url : Option String) (target : String) : Bool :=
  match url with
  | some u => u != "" && jsToLower (jsTrim u) == jsToLower (jsTrim target)
  | none => false

/-- Depth-first search for matching extensions (source: the inner
`findExtensions` closure): a matching node is collected, then its children are
searched whether or not it matched, then the remaining siblings. -/
def findExtensions (target : String) : List Extension → List Extension
  | [] => []
  | .mk u ch v :: rest =>
    ((if urlMatches u target then [Extension.mk u ch v] else []) ++
      (match ch with
       | some cs => findExtensions target cs
       | none => [])) ++
    findExtensions target rest

/-- The (code, display) pairs of the coded value of one extension (source: the
body of the second `forEach`, reading `ext.valueCodeableConcept?.coding` behind
an `if (coding)` guard). -/
def codedPairs (e : Extension) : List (String × String) :=
  match e.valueCodeableConcept with
  | some (some coding, _) => coding.map (fun c => (c.code, c.display))
  | some (none, _) => []
  | none => []

/-- All (code, display) pairs contributed by a list of matched extensions, in
traversal order. -/
def collectPairs (exts : List Extension) : List (String × String) :=
  exts.flatMap codedPairs

/-- The dictionary accumulated by `valObject[c.code] = c.display` over the
collected pairs: later pairs overwrite earlier ones sharing a code. -/
def buildValObject (pairs : List (String × String)) : AssocMap :=
  pairs.foldl (fun m p => setKeyG m p.1 p.2) []

/-- Body of `getExtensionValueByUrl` once the root extension array is in hand:
collect matching extensions, merge their coded values into one dictionary, and
wrap a non-empty dictionary in a singleton list (`Object.keys(valObject).length
> 0 ? [valObject] : []`; the key count of the dictionary is its entry count). -/
def resolveExtensions (es : List Extension) (target : String) : List AssocMap :=
  let valObject := buildValObject (collectPairs (findExtensions target es))
  if valObject.length > 0 then [valObject] else []

/-- Source: `getExtensionValueByUrl`.  The root access
`findExtensions(concept.extension)` is unguarded: when the concept carries no
extension array, `extensions.forEach` throws a `TypeError`, modelled as an
`Except.error`. -/
def getExtensionValueByUrl (concept : Concept) (targetUrl : String) :
    Except String (List AssocMap) :=
  match concept.extension with
  | none => .error "TypeError: Cannot read properties of undefined (reading forEach)"
  | some es => .ok (resolveExtensions es targetUrl)

/-! ## Display name selection (source: `getDisplayName`, bilingual variant) -/

/-- The naming system url required of a matching designation use. -/
def displayTermsSystem : String :=
  "https://nvc-cnv.canada.ca/v1/NamingSystem/nvc-display-terms-designation"

/-- Source: `getDisplayName`.  Finds the first designation whose language, use
code and use system all match; absent `designation` arrays and absent `use`
descriptors simply never match. -/
def getDisplayName (concept : Concept) (lang : String) (code : String) :
    Option String :=
  match concept.designation with
  | none => none
  | some ds =>
    (ds.find? (fun d =>
      d.language == lang &&
      (match d.use with
       | some u => u.code == code && u.system == displayTermsSystem
       | none => false))).map (fun d => d.value)

/-- The display string the flattener puts in a record:
`getDisplayName(concept, lang, code) || concept.display`. -/
def selectDisplay (concept : Concept) (lang : String) (code : String) : String :=
  jsOrStr (getDisplayName concept lang code) concept.display

/-! ## Target urls -/

/-- Base url of the upstream API (the default of the `NVC_API_URL` environment
variable in the bilingual variant, and the hard-coded constant of the simple
variant). -/
def API_URL : String := "https://nvc-cnv.canada.ca"

/-- Target url of the disease extension. -/
def diseaseUrl : String := API_URL ++ "/v1/StructureDefinition/nvc-protects-against-disease"

/-- Target url of the market-authorization-holder extension. -/
def mahUrl : String := API_URL ++ "/v1/StructureDefinition/nvc-linked-to-market-authorization-holder"

/-! ## Bilingual flattener (source: `parseNVCBundle` in app.ts) -/

/-- An English/French name pair, the value type of the auxiliary lookups. -/
structure LangPair where
  en : String
  fr : String
  deriving DecidableEq

/-- A code-keyed auxiliary lookup (disease or market-authorization holder). -/
abbrev LangLookup := List (String × LangPair)

/-- One flattened output record of the bilingual variant.  A field of type
`Option` models a key that may be absent from the JavaScript record object. -/
structure VaccineRecord where
  displayEN : String
  displayFR : String
  diseaseEN : Option (List AssocMap)
  diseaseFR : Option (List AssocMap)
  MAHEN : Option String
  MAHFR : Option String
  deriving DecidableEq

/-- The `diseaseEN`/`diseaseFR` lists computed by the bilingual flattener for
one concept: when the disease extension resolved, each code of the first (and
only) mapping is translated through the disease lookup, falling back to the
code itself (`diseaseLookup[code]?.en || code`), each as its own singleton
object. -/
def diseaseNames (diseaseLookup : LangLookup) (disease : List AssocMap) :
    List AssocMap × List AssocMap :=
  match disease with
  | d0 :: _ =>
    let codes := d0.map (fun p => p.1)
    (codes.map (fun code =>
       [(code, jsOrStr ((getKeyG diseaseLookup code).map (fun p => p.en)) code)]),
     codes.map (fun code =>
       [(code, jsOrStr ((getKeyG diseaseLookup code).map (fun p => p.fr)) code)]))
  | [] => ([], [])

/-- The `MAHEN`/`MAHFR` strings computed by the bilingual flattener for one
concept: when the MAH extension resolved and its mapping has a first code,
translate that code through the MAH lookup, falling back to the display stored
in the mapping (`mahLookup[codes[0]]?.en || MAH[0][codes[0]]`); otherwise both
strings stay empty. -/
def mahNames (mahLookup : LangLookup) (MAH : List AssocMap) : String × String :=
  match MAH with
  | m0 :: _ =>
    match m0 with
    | (c0, d0) :: _ =>
      (jsOrStr ((getKeyG mahLookup c0).map (fun p => p.en)) d0,
       jsOrStr ((getKeyG mahLookup c0).map (fun p => p.fr)) d0)
    | [] => ("", "")
  | [] => ("", "")

/-- The record the bilingual flattener writes for one concept, given the
already-resolved disease and MAH extension results (source: the body of the
innermost `forEach` of `parseNVCBundle` in app.ts).  The disease fields are
assigned unconditionally; the MAH fields are assigned only when both computed
names are truthy (`if (MAHEN && MAHFR)`). -/
def buildRecord (diseaseLookup mahLookup : LangLookup) (c : Concept)
    (disease MAH : List AssocMap) : VaccineRecord :=
  let displayEN := selectDisplay c "en" "enDisplayTerm"
  let displayFR := selectDisplay c "fr" "frDisplayTerm"
  let diseasePair := diseaseNames diseaseLookup disease
  let mahPair := mahNames mahLookup MAH
  { displayEN := displayEN
    displayFR := displayFR
    diseaseEN := some diseasePair.1
    diseaseFR := some diseasePair.2
    MAHEN := if mahPair.1 ≠ "" ∧ mahPair.2 ≠ "" then some mahPair.1 else none
    MAHFR := if mahPair.1 ≠ "" ∧ mahPair.2 ≠ "" then some mahPair.2 else none }

/-- The flattened output table of the bilingual variant. -/
abbrev Table := List (String × VaccineRecord)

/-- Resolve both extensions of a concept and build its record; either
resolution throws when the concept carries no root extension array. -/
def conceptRecord (diseaseLookup mahLookup : LangLookup) (c : Concept) :
    Except String VaccineRecord := do
  let disease ← getExtensionValueByUrl c diseaseUrl
  let MAH ← getExtensionValueByUrl c mahUrl
  pure (buildRecord diseaseLookup mahLookup c disease MAH)

/-- Process one concept: `table[concept.code] = record`. -/
def processConcept (diseaseLookup mahLookup : LangLookup) (t : Table)
    (c : Concept) : Except String Table :=
  (conceptRecord diseaseLookup mahLookup c).map (fun r => setKeyG t c.code r)

/-- Process the concepts of one include block in order; a thrown error aborts
the whole iteration. -/
def processConcepts (diseaseLookup mahLookup : LangLookup) (t : Table) :
    List Concept → Except String Table
  | [] => .ok t
  | c :: cs =>
    match processConcept diseaseLookup mahLookup t c with
    | .ok t1 => processConcepts diseaseLookup mahLookup t1 cs
    | .error e => .error e

/-- Process one include block, skipping it when `include.concept` is not an
array (source: `if (include.concept && Array.isArray(include.concept))`). -/
def processInclude (diseaseLookup mahLookup : LangLookup) (t : Table)
    (inc : Include) : Except String Table :=
  match inc.concept with
  | some cs => processConcepts diseaseLookup mahLookup t cs
  | none => .ok t

/-- Process the include blocks of one ValueSet in order. -/
def processIncludes (diseaseLookup mahLookup : LangLookup) (t : Table) :
    List Include → Except String Table
  | [] => .ok t
  | inc :: incs =>
    match processInclude diseaseLookup mahLookup t inc with
    | .ok t1 => processIncludes diseaseLookup mahLookup t1 incs
    | .error e => .error e

/-- Process one bundle entry: only resources whose id is a recognized vaccine
kind contribute, and only when `compose` is present with an `include` array
(source: the guards at the top of `parseNVCBundle`). -/
def processEntry (diseaseLookup mahLookup : LangLookup) (t : Table)
    (e : BundleEntry) : Except String Table :=
  if isValueSet e.resource.id then
    match e.resource.compose with
    | some comp =>
      match comp.«include» with
      | some incs => processIncludes diseaseLookup mahLookup t incs
      | none => .ok t
    | none => .ok t
  else
    .ok t

/-- Process the bundle entries in order. -/
def processEntries (diseaseLookup mahLookup : LangLookup) (t : Table) :
    List BundleEntry → Except String Table
  | [] => .ok t
  | e :: es =>
    match processEntry diseaseLookup mahLookup t e with
    | .ok t1 => processEntries diseaseLookup mahLookup t1 es
    | .error e1 => .error e1

/-- Source: `parseNVCBundle` of the bilingual variant. -/
def parseNVCBundle (data : Data) (diseaseLookup mahLookup : LangLookup) :
    Except String Table :=
  processEntries diseaseLookup mahLookup [] data.entry

/-! ## Single-language flattener (source: `parseNVCBundle` of the simple
variant) -/

/-- One flattened output record of the simple variant. -/
structure SimpleRecord where
  displayName : String
  disease : Option (List AssocMap)
  MAH : Option (List AssocMap)
  deriving DecidableEq

/-- The record of the simple flattener: the display name is always present,
and the disease and MAH results are attached only when non-empty (the source
tests `Object.keys(disease).length > 0`, and the keys of an array are its
indices, so the test is just non-emptiness of the resolution result). -/
def buildSimpleRecord (c : Concept) (disease MAH : List AssocMap) : SimpleRecord :=
  { displayName := c.display
    disease := if disease.length > 0 then some disease else none
    MAH := if MAH.length > 0 then some MAH else none }

/-- The flattened output table of the simple variant. -/
abbrev SimpleTable := List (String × SimpleRecord)

/-- Resolve both extensions of a concept and build its simple record. -/
def conceptRecordS (c : Concept) : Except String SimpleRecord := do
  let disease ← getExtensionValueByUrl c diseaseUrl
  let MAH ← getExtensionValueByUrl c mahUrl
  pure (buildSimpleRecord c disease MAH)

/-- Process one concept of the simple variant. -/
def processConceptS (t : SimpleTable) (c : Concept) : Except String SimpleTable :=
  (conceptRecordS c).map (fun r => setKeyG t c.code r)

/-- Process the concepts of one include block of the simple variant. -/
def processConceptsS (t : SimpleTable) : List Concept → Except String SimpleTable
  | [] => .ok t
  | c :: cs =>
    match processConceptS t c with
    | .ok t1 => processConceptsS t1 cs
    | .error e => .error e

/-- Process one include block of the simple variant. -/
def processIncludeS (t : SimpleTable) (inc : Include) : Except String SimpleTable :=
  match inc.concept with
  | some cs => processConceptsS t cs
  | none => .ok t

/-- Process the include blocks of one ValueSet of the simple variant. -/
def processIncludesS (t : SimpleTable) : List Include → Except String SimpleTable
  | [] => .ok t
  | inc :: incs =>
    match processIncludeS t inc with
    | .ok t1 => processIncludesS t1 incs
    | .error e => .error e

/-- Process one bundle entry of the simple variant. -/
def processEntryS (t : SimpleTable) (e : BundleEntry) : Except String SimpleTable :=
  if isValueSet e.resource.id then
    match e.resource.compose with
    | some comp =>
      match comp.«include» with
      | some incs => processIncludesS t incs
      | none => .ok t
    | none => .ok t
  else
    .ok t

/-- Process the bundle entries of the simple variant in order. -/
def processEntriesS (t : SimpleTable) : List BundleEntry → Except String SimpleTable
  | [] => .ok t
  | e :: es =>
    match processEntryS t e with
    | .ok t1 => processEntriesS t1 es
    | .error e1 => .error e1

/-- Source: `parseNVCBundle` of the simple single-language variant. -/
def parseNVCBundleS (data : Data) : Except String SimpleTable :=
  processEntriesS [] data.entry

/-! ## Filesystem model and the main routine of the bilingual variant -/

/-- The state of one JSON file on disk: absent, present but unparseable (or of
the wrong shape at the top level), or holding a parseable value of type α. -/
inductive FileState (α : Type) : Type where
  | absent : FileState α
  | corrupt : FileState α
  | valid (a : α) : FileState α

/-- The files the bilingual variant touches. -/
structure FS where
  diseaseFile : FileState Compose
  mahFile : FileState Compose
  bundleFile : FileState (String × Table)
  versionFile : FileState String

/-- Reading and parsing a compose file: a missing file makes `readFile` throw,
an unparseable one makes `JSON.parse` throw. -/
def readCompose : FileState Compose → Except String Compose
  | .valid c => .ok c
  | .absent => .error "ENOENT: no such file or directory"
  | .corrupt => .error "SyntaxError: Unexpected token in JSON"

/-- The last resource of the bundle satisfying a predicate on its id (the
source assigns inside `forEach`, so a later match overwrites an earlier one). -/
def findLastResource (data : Data) (p : String → Bool) : Option ValueSet :=
  data.entry.foldl (fun acc e => if p e.resource.id then some e.resource else acc) none

/-- Writing `JSON.stringify(resource.compose)` for an optionally found
resource: no resource leaves the file untouched; a resource without a
`compose` makes the write reject (stringify of an absent value is not a
string).  Otherwise the file now holds the compose. -/
def writeResourceCompose (r : Option ValueSet) (cur : FileState Compose) :
    Except String (FileState Compose) :=
  match r with
  | none => .ok cur
  | some res =>
    match res.compose with
    | some c => .ok (.valid c)
    | none => .error "TypeError: data argument must be of type string"

/-- The two-language name of one concept of an auxiliary resource, as computed
inline in `main` (same designation predicate as `getDisplayName`, with the
same `|| concept.display` fallback). -/
def lookupName (c : Concept) (lang : String) (code : String) : String :=
  jsOrStr (getDisplayName c lang code) c.display

/-- Build a code-keyed lookup from the include blocks of a compose read back
from disk (source: the `diseaseData.include.forEach` / `mahData.include.
forEach` loops in `main`).  An include block without a `concept` array makes
the loop throw. -/
def buildLookupIncludes (acc : LangLookup) : List Include → Except String LangLookup
  | [] => .ok acc
  | inc :: rest =>
    match inc.concept with
    | none => .error "TypeError: Cannot read properties of undefined (reading forEach)"
    | some cs =>
      buildLookupIncludes
        (cs.foldl (fun a c =>
          setKeyG a c.code
            ⟨lookupName c "en" "enDisplayTerm", lookupName c "fr" "frDisplayTerm"⟩) acc)
        rest

/-- Build a code-keyed two-language lookup from a compose; a compose without
an `include` array makes the loop throw. -/
def buildLangLookup (comp : Compose) : Except String LangLookup :=
  match comp.«include» with
  | none => .error "TypeError: Cannot read properties of undefined (reading forEach)"
  | some incs => buildLookupIncludes [] incs

/-- The disease lookup step of `main`: read `disease.json` from disk
(unconditionally) and build the lookup; any failure aborts the run. -/
def computeDiseaseLookup (fs : FS) : Except String LangLookup :=
  (readCompose fs.diseaseFile).bind buildLangLookup

/-- The MAH lookup step of `main`: only attempted when the MAH resource was
found in the bundle, and wrapped in a try/catch that falls back to an empty
lookup on any read or shape error. -/
def computeMahLookup (mahResource : Option ValueSet) (fs : FS) : LangLookup :=
  match mahResource with
  | none => []
  | some _ =>
    match (readCompose fs.mahFile).bind buildLangLookup with
    | .ok ml => ml
    | .error _ => []

/-- Source: `main` of the bilingual variant, given the already-fetched bundle
and the state of the filesystem.  Returns the final filesystem and the caught
error, if any; steps performed before a thrown error keep their effects.  The
intermediate filesystem states of the source are written inline. -/
def mainBilingual (data : Data) (fs : FS) : FS × Option String :=
  match writeResourceCompose (findLastResource data isValueSetDisease)
      fs.diseaseFile with
  | .error e => (fs, some e)
  | .ok df =>
    match writeResourceCompose (findLastResource data isValueSetMAH)
        fs.mahFile with
    | .error e => ({ fs with diseaseFile := df }, some e)
    | .ok mf =>
      match computeDiseaseLookup { fs with diseaseFile := df, mahFile := mf } with
      | .error e => ({ fs with diseaseFile := df, mahFile := mf }, some e)
      | .ok diseaseLookup =>
        match parseNVCBundle data diseaseLookup
            (computeMahLookup (findLastResource data isValueSetMAH)
              { fs with diseaseFile := df, mahFile := mf }) with
        | .error e => ({ fs with diseaseFile := df, mahFile := mf }, some e)
        | .ok table =>
          ({ fs with
              diseaseFile := df
              mahFile := mf
              bundleFile := .valid (data.meta.versionId, table)
              versionFile := .valid data.meta.versionId }, none)

/-! ## Version-gated main routine of the simple variant -/

/-- The files the simple variant touches. -/
structure SimpleFS where
  versionFile : FileState String
  bundleFile : FileState (String × SimpleTable)

/-- The observable outcome of one run of the simple variant. -/
inductive RunOutcome : Type where
  | updated (v : String) : RunOutcome
  | noChange (v : Option String) : RunOutcome
  | failed (msg : String) : RunOutcome

/-- Reading the persisted version marker: a missing or unreadable file is
caught and treated as no previous version (source: the inner try/catch of the
simple `main`). -/
def readStoredVersion (fs : SimpleFS) : Option String :=
  match fs.versionFile with
  | .valid v => some v
  | _ => none

/-- Source: `main` of the simple variant, given the already-fetched bundle.
When the stored version differs from the fetched one, the table and the new
marker are written; when they are equal, nothing is written and the run
reports no change; a thrown error (caught at top level) writes nothing. -/
def mainSimple (data : Data) (fs : SimpleFS) : SimpleFS × RunOutcome :=
  let newVersionId := data.meta.versionId
  let currentVersionId := readStoredVersion fs
  if currentVersionId ≠ some newVersionId then
    match parseNVCBundleS data with
    | .ok table =>
      ({ versionFile := .valid newVersionId,
         bundleFile := .valid (newVersionId, table) }, .updated newVersionId)
    | .error e => (fs, .failed e)
  else
    (fs, .noChange currentVersionId)

/-! ## Specification-side definitions

These definitions follow the wording of the specification (for refinement
statements) or provide derived views of the embedded data used to state the
claims; they are not transcriptions of further source code. -/

/-- All nodes of an extension tree in depth-first preorder: each node comes
before its children, which come before its right siblings. -/
def dfsNodes : List Extension → List Extension
  | [] => []
  | .mk u ch v :: rest =>
    Extension.mk u ch v ::
      ((match ch with
        | some cs => dfsNodes cs
        | none => []) ++ dfsNodes rest)

/-- Url comparison exactly as the specification words it: the node url equals
the target after trimming whitespace, case-insensitively.  (A node without a
url has no url to compare, hence never matches.)  Unlike the code, this does
not require the url to be non-empty. -/
def urlMatchesSpec (url : Option String) (target : String) : Bool :=
  match url with
  | some u => jsToLower (jsTrim u) == jsToLower (jsTrim target)
  | none => false

/-- Modelled from the spec: the extension resolver as claim C1 words it —
collect every node of the tree, in depth-first order, whose url equals the
target after trimming and case-insensitive comparison; merge all coded pairs
of the matches with later pairs overwriting earlier ones on the same code;
wrap a non-empty merged mapping in a singleton sequence. -/
def specResolveClaim (es : List Extension) (target : String) : List AssocMap :=
  let pairs := collectPairs ((dfsNodes es).filter (fun e => urlMatchesSpec e.url target))
  let merged := buildValObject pairs
  if merged.length > 0 then [merged] else []

/-- The amended specification-side resolver: as `specResolveClaim`, but a
matching node must additionally carry a non-empty url, mirroring the
truthiness guard of the code. -/
def specResolveAmended (es : List Extension) (target : String) : List AssocMap :=
  let pairs := collectPairs ((dfsNodes es).filter (fun e => urlMatches e.url target))
  let merged := buildValObject pairs
  if merged.length > 0 then [merged] else []

/-- The display of the last collected pair carrying a given code. -/
def lastAssoc (pairs : List (String × String)) (k : String) : Option String :=
  ((pairs.filter (fun p => p.1 == k)).getLast?).map (fun p => p.2)

/-- The concepts of one include block (absent arrays contribute nothing). -/
def conceptsOfInclude (inc : Include) : List Concept :=
  inc.concept.getD []

/-- The concepts one bundle entry contributes to the flattener: none unless
the resource id is a recognized vaccine kind and the compose structure is
present with an include array. -/
def conceptsOfEntry (e : BundleEntry) : List Concept :=
  if isValueSet e.resource.id then
    match e.resource.compose with
    | some comp =>
      match comp.«include» with
      | some incs => incs.flatMap conceptsOfInclude
      | none => []
    | none => []
  else []

/-- All concepts the flattener processes, in processing order. -/
def conceptsOf (data : Data) : List Concept :=
  data.entry.flatMap conceptsOfEntry

/-- Permutation of sibling extensions anywhere in an extension forest: the
top-level list may be permuted, a child list of any node may be recursively
permuted, and such steps compose. -/
inductive SibPerm : List Extension → List Extension → Prop where
  | perm {l l' : List Extension} : l.Perm l' → SibPerm l l'
  | congr {u v c c' l l'} : SibPerm c c' → SibPerm l l' →
      SibPerm (Extension.mk u (some c) v :: l) (Extension.mk u (some c') v :: l')
  | keep {e l l'} : SibPerm l l' → SibPerm (e :: l) (e :: l')
  | trans {l1 l2 l3} : SibPerm l1 l2 → SibPerm l2 l3 → SibPerm l1 l3

/-- A pair list is consistent when no code is assigned two different
displays. -/
def Consistent (pairs : List (String × String)) : Prop :=
  ∀ p ∈ pairs, ∀ q ∈ pairs, p.1 = q.1 → p.2 = q.2

/-- Normalization of an absent url: an absent url behaves like the empty
(hence never-matching) url. -/
def fillUrl : Option String → Option String
  | none => some ""
  | some u => some u

/-- Normalization of an absent coded value or coding list: both behave like a
coded value with an empty coding list. -/
def fillVcc : Option (Option (List Coding) × String) →
    Option (Option (List Coding) × String)
  | none => some (some [], "")
  | some (none, t) => some (some [], t)
  | some (some cs, t) => some (some cs, t)

/-- Normalization of a whole extension forest: absent sub-structures are
replaced by present-but-empty ones. -/
def fillExts : List Extension → List Extension
  | [] => []
  | .mk u none v :: rest =>
    Extension.mk (fillUrl u) (some []) (fillVcc v) :: fillExts rest
  | .mk u (some ch) v :: rest =>
    Extension.mk (fillUrl u) (some (fillExts ch)) (fillVcc v) :: fillExts rest

/-- The MAH name a bilingual record receives when the MAH lookup is empty:
the display stored under the first code of the resolved mapping, when it is
non-empty. -/
def mahFallback (m : List AssocMap) : Option String :=
  match m with
  | m0 :: _ =>
    match m0 with
    | (_, d0) :: _ => if d0 = "" then none else some d0
    | [] => none
  | [] => none

/-! ## Association map lemmas -/

/-- Reading back after a JavaScript object assignment: the assigned key now
holds the assigned value, other keys are untouched. -/
theorem getKeyG_setKeyG {α : Type} (m : List (String × α)) (a k : String) (v : α) :
    getKeyG (setKeyG m a v) k = if k = a then some v else getKeyG m k := by
  unfold setKeyG getKeyG
  by_cases h : m.any (fun p => p.1 == a)
  · rw [if_pos h, List.find?_map]
    by_cases hk : k = a
    · rw [if_pos hk]
      have hpred : ((fun p : String × α => p.1 == k) ∘
          fun p => if p.1 == a then (a, v) else p) =
          (fun p : String × α => p.1 == a) := by
        funext q
        by_cases hq : q.1 = a
        · simp [Function.comp, hq, hk]
        · simp [Function.comp, hq, hk]
      rw [hpred]
      rcases List.any_eq_true.mp h with ⟨q0, hq0, hq0a⟩
      have hsome : (m.find? (fun p => p.1 == a)).isSome := by
        rw [List.find?_isSome]
        exact ⟨q0, hq0, hq0a⟩
      rcases Option.isSome_iff_exists.mp hsome with ⟨q1, hq1⟩
      have hq1a : q1.1 = a := by simpa using List.find?_some hq1
      rw [hq1]
      simp [hq1a]
    · rw [if_neg hk]
      have hpred : ((fun p : String × α => p.1 == k) ∘
          fun p => if p.1 == a then (a, v) else p) =
          (fun p : String × α => p.1 == k) := by
        funext q
        by_cases hq : q.1 = a
        · simp [Function.comp, hq]
        · simp [Function.comp, hq]
      rw [hpred]
      cases hfind : m.find? fun p => p.1 == k with
      | none => simp
      | some q =>
        have hqk : q.1 = k := by simpa using List.find?_some hfind
        have hqa : ¬ q.1 = a := by rw [hqk]; exact hk
        simp [hqa]
  · rw [if_neg h, List.find?_append]
    by_cases hk : k = a
    · rw [if_pos hk]
      have h1 : m.find? (fun p => p.1 == k) = none := by
        rw [List.find?_eq_none]
        intro x hx hxk
        apply h
        apply List.any_eq_true.mpr
        rw [hk] at hxk
        exact ⟨x, hx, hxk⟩
      have h2 : [((a, v) : String × α)].find? (fun p => p.1 == k) = some (a, v) := by
        simp [hk]
      rw [h1, h2]
      rfl
    · rw [if_neg hk]
      have h2 : [((a, v) : String × α)].find? (fun p => p.1 == k) = none := by
        simp only [List.find?_singleton, beq_iff_eq]
        rw [if_neg]
        exact fun hh => hk hh.symm
      rw [h2]
      cases m.find? (fun p => p.1 == k) <;> rfl

/-- Reading a key out of a dictionary built by repeated assignment: the value
of the last written pair with that key, else whatever the initial dictionary
held. -/
theorem getKeyG_foldl_set {α : Type} (l : List (String × α))
    (init : List (String × α)) (k : String) :
    getKeyG (l.foldl (fun m p => setKeyG m p.1 p.2) init) k =
      ((l.filter (fun p => p.1 == k)).getLast?.map (fun p => p.2)).or
        (getKeyG init k) := by
  induction l generalizing init with
  | nil => simp
  | cons p l ih =>
    rw [List.foldl_cons, ih]
    by_cases hk : p.1 = k
    · rw [List.filter_cons_of_pos (by simp [hk])]
      cases hfl : (l.filter (fun p => p.1 == k)).getLast? with
      | some q =>
        rw [List.getLast?_cons, hfl]
        rfl
      | none =>
        rw [List.getLast?_cons, hfl]
        simp only [Option.getD_none, Option.map_some', Option.map_none', Option.or_none]
        rw [getKeyG_setKeyG, if_pos hk.symm]
        rfl
    · rw [List.filter_cons_of_neg (by simp [hk])]
      cases hfl : (l.filter (fun p => p.1 == k)).getLast? with
      | some q => rfl
      | none =>
        simp only [Option.map_none', Option.or_none] at *
        rw [getKeyG_setKeyG, if_neg (fun hh => hk hh.symm)]

/-- Reading a key out of the merged value object gives the display of the last
collected pair carrying that code. -/
theorem getKeyG_buildValObject (pairs : List (String × String)) (k : String) :
    getKeyG (buildValObject pairs) k = lastAssoc pairs k := by
  unfold buildValObject lastAssoc
  rw [getKeyG_foldl_set]
  cases (pairs.filter (fun p => p.1 == k)).getLast? with
  | none => simp [getKeyG]
  | some q => rfl

/-- Assignment never shrinks a dictionary. -/
theorem length_setKeyG_ge {α : Type} (m : List (String × α)) (a : String) (v : α) :
    m.length ≤ (setKeyG m a v).length := by
  unfold setKeyG
  by_cases h : m.any (fun p => p.1 == a)
  · rw [if_pos h, List.length_map]
  · rw [if_neg h, List.length_append]
    omega

/-- Folded assignment never shrinks a dictionary. -/
theorem length_foldl_set_ge {α : Type} (l : List (String × α))
    (init : List (String × α)) :
    init.length ≤ (l.foldl (fun m p => setKeyG m p.1 p.2) init).length := by
  induction l generalizing init with
  | nil => simp
  | cons p l ih =>
    rw [List.foldl_cons]
    exact le_trans (length_setKeyG_ge init p.1 p.2) (ih _)

/-- The merged value object is empty exactly when no pair was collected. -/
theorem buildValObject_eq_nil_iff (pairs : List (String × String)) :
    buildValObject pairs = [] ↔ pairs = [] := by
  constructor
  · intro h
    cases pairs with
    | nil => rfl
    | cons p rest =>
      exfalso
      have h1 : (setKeyG ([] : AssocMap) p.1 p.2).length ≤
          (buildValObject (p :: rest)).length := by
        unfold buildValObject
        rw [List.foldl_cons]
        exact length_foldl_set_ge rest _
      have h2 : setKeyG ([] : AssocMap) p.1 p.2 = [(p.1, p.2)] := rfl
      rw [h, h2] at h1
      simp at h1
  · intro h
    rw [h]
    rfl

/-- The resolver returns the empty sequence exactly when no coded pair was
collected from a matching extension. -/
theorem resolveExtensions_eq_nil_iff (es : List Extension) (t : String) :
    resolveExtensions es t = [] ↔ collectPairs (findExtensions t es) = [] := by
  unfold resolveExtensions
  by_cases h : (buildValObject (collectPairs (findExtensions t es))).length > 0
  · rw [if_pos h]
    constructor
    · intro hh
      exact absurd hh (by simp)
    · intro hh
      rw [← buildValObject_eq_nil_iff] at hh
      rw [hh] at h
      simp at h
  · rw [if_neg h]
    have : buildValObject (collectPairs (findExtensions t es)) = [] := by
      cases hb : buildValObject (collectPairs (findExtensions t es)) with
      | nil => rfl
      | cons x xs =>
        exfalso
        apply h
        rw [hb]
        simp
    rw [← buildValObject_eq_nil_iff]
    simp [this]

/-- When some coded pair was collected, the resolver wraps the merged value
object in a singleton sequence. -/
theorem resolveExtensions_eq_singleton (es : List Extension) (t : String)
    (h : collectPairs (findExtensions t es) ≠ []) :
    resolveExtensions es t = [buildValObject (collectPairs (findExtensions t es))] := by
  unfold resolveExtensions
  rw [if_pos]
  rcases hb : buildValObject (collectPairs (findExtensions t es)) with _ | ⟨x, xs⟩
  · exact absurd ((buildValObject_eq_nil_iff _).mp hb) h
  · simp

/-! ## Structure of the depth-first extension search -/

/-- Computation rule for the url projection. -/
@[simp] theorem Extension.url_mk (u : Option String) (ch : Option (List Extension))
    (v : Option (Option (List Coding) × String)) :
    (Extension.mk u ch v).url = u := rfl

/-- Computation rule for the child projection. -/
@[simp] theorem Extension.extension_mk (u : Option String)
    (ch : Option (List Extension)) (v : Option (Option (List Coding) × String)) :
    (Extension.mk u ch v).extension = ch := rfl

/-- Computation rule for the coded-value projection. -/
@[simp] theorem Extension.valueCodeableConcept_mk (u : Option String)
    (ch : Option (List Extension)) (v : Option (Option (List Coding) × String)) :
    (Extension.mk u ch v).valueCodeableConcept = v := rfl

/-- The search processes one sibling at a time. -/
theorem findExtensions_cons (t : String) (e : Extension) (rest : List Extension) :
    findExtensions t (e :: rest) = findExtensions t [e] ++ findExtensions t rest := by
  cases e with
  | mk u ch v =>
    cases ch with
    | none => simp [findExtensions]
    | some cs => simp [findExtensions]

/-- The search distributes over sibling concatenation. -/
theorem findExtensions_append (t : String) (l1 l2 : List Extension) :
    findExtensions t (l1 ++ l2) = findExtensions t l1 ++ findExtensions t l2 := by
  induction l1 with
  | nil => simp [findExtensions]
  | cons e l1 ih =>
    rw [List.cons_append, findExtensions_cons, ih, findExtensions_cons t e l1]
    simp [List.append_assoc]

/-- The search over a sibling list is the concatenation of the searches of the
individual siblings. -/
theorem findExtensions_flatMap (t : String) (l : List Extension) :
    findExtensions t l = l.flatMap (fun e => findExtensions t [e]) := by
  induction l with
  | nil => simp [findExtensions]
  | cons e l ih => rw [findExtensions_cons, ih, List.flatMap_cons]

/-- The depth-first search collects exactly the preorder nodes whose url
matches the target: a node is collected before its descendants, descendants
are searched whether or not the node matched, and only the url comparison
decides membership. -/
theorem findExtensions_eq_filter_dfs (t : String) (es : List Extension) :
    findExtensions t es = (dfsNodes es).filter (fun e => urlMatches e.url t) := by
  induction es using findExtensions.induct t with
  | case1 => simp [findExtensions, dfsNodes]
  | case2 u ch v rest ih1 ih2 =>
    cases ch with
    | none =>
      simp only [findExtensions, dfsNodes, List.filter_cons, List.filter_append,
        Extension.url_mk]
      rw [← ih2]
      by_cases hm : urlMatches u t <;> simp [hm]
    | some cs =>
      have ih1' : findExtensions t cs =
          (dfsNodes cs).filter (fun e => urlMatches e.url t) := ih1
      simp only [findExtensions, dfsNodes, List.filter_cons, List.filter_append,
        Extension.url_mk]
      rw [← ih1', ← ih2]
      by_cases hm : urlMatches u t <;> simp [hm]

/-- Collected pairs distribute over concatenation of matched extensions. -/
theorem collectPairs_append (l1 l2 : List Extension) :
    collectPairs (l1 ++ l2) = collectPairs l1 ++ collectPairs l2 := by
  unfold collectPairs
  rw [List.flatMap_append]

/-- The pairs collected from a sibling list concatenate the pairs collected
from the individual siblings. -/
theorem collectPairs_findExtensions_flatMap (t : String) (l : List Extension) :
    collectPairs (findExtensions t l) =
      l.flatMap (fun e => collectPairs (findExtensions t [e])) := by
  induction l with
  | nil => simp [findExtensions, collectPairs]
  | cons e l ih =>
    rw [findExtensions_cons, collectPairs_append, ih, List.flatMap_cons]

/-- The transcribed resolver body agrees with the amended specification-side
resolver (depth-first matching with the non-empty-url guard). -/
theorem resolveExtensions_eq_specAmended (es : List Extension) (t : String) :
    resolveExtensions es t = specResolveAmended es t := by
  unfold resolveExtensions specResolveAmended
  rw [findExtensions_eq_filter_dfs]

/-! ## Claim C1 -/

/-- C1 (amended): for every Concept whose root extension array is present and
every target url, the resolver performs the depth-first traversal described by
the specification — with the proviso that a matching node must carry a
non-empty url — merging all coded pairs of the matches with later matches
overwriting earlier ones on the same code, and returns a singleton sequence
with the merged mapping, or the empty sequence when no match contributed a
coded pair.  (A Concept without a root extension array makes the resolver
throw instead; see claim C4.) -/
theorem extension_resolver_amended (c : Concept) (t : String)
    (es : List Extension) (h : c.extension = some es) :
    getExtensionValueByUrl c t = .ok (specResolveAmended es t) ∧
    (getExtensionValueByUrl c t = .ok [] ↔
      collectPairs (findExtensions t es) = []) ∧
    (∀ m, getExtensionValueByUrl c t = .ok [m] →
      ∀ k, getKeyG m k = lastAssoc (collectPairs (findExtensions t es)) k) := by
  have hres : getExtensionValueByUrl c t = .ok (resolveExtensions es t) := by
    unfold getExtensionValueByUrl
    rw [h]
  refine ⟨by rw [hres, resolveExtensions_eq_specAmended], ?_, ?_⟩
  · rw [hres]
    constructor
    · intro hh
      have : resolveExtensions es t = [] := by
        exact Except.ok.inj hh
      exact (resolveExtensions_eq_nil_iff es t).mp this
    · intro hh
      rw [(resolveExtensions_eq_nil_iff es t).mpr hh]
  · intro m hm k
    by_cases hp : collectPairs (findExtensions t es) = []
    · rw [hres, (resolveExtensions_eq_nil_iff es t).mpr hp] at hm
      exact absurd (Except.ok.inj hm) (by simp)
    · rw [hres, resolveExtensions_eq_singleton es t hp] at hm
      have hm' : m = buildValObject (collectPairs (findExtensions t es)) := by
        have := Except.ok.inj hm
        exact (List.cons.inj this).1.symm
      rw [hm', getKeyG_buildValObject]

/-- An extension node with an empty url and an attached coded value. -/
def cexUrlExt : Extension :=
  .mk (some "") none (some (some [⟨"sys", "c", "NameD"⟩], ""))

/-- A concept carrying only `cexUrlExt`. -/
def cexUrlConcept : Concept :=
  ⟨"V", "Disp", none, some [cexUrlExt]⟩

/-- C1 (counterexample): on a node whose url is the empty string and a target
that trims to the empty string, the code refuses the match (the truthiness
guard short-circuits) and returns the empty sequence, while the traversal as
the claim words it — url equal to the target after trimming, case-insensitive
— matches the node and returns its coded pair. -/
theorem extension_resolver_claim_counterexample :
    getExtensionValueByUrl cexUrlConcept "" = .ok [] ∧
    specResolveClaim [cexUrlExt] "" = [[("c", "NameD")]] ∧
    getExtensionValueByUrl cexUrlConcept "" ≠ .ok (specResolveClaim [cexUrlExt] "") := by
  have hcode : getExtensionValueByUrl cexUrlConcept "" = .ok [] := by
    simp only [getExtensionValueByUrl, cexUrlConcept, cexUrlExt, resolveExtensions,
      findExtensions]
    rfl
  have hspec : specResolveClaim [cexUrlExt] "" = [[("c", "NameD")]] := by
    simp only [specResolveClaim, cexUrlExt, dfsNodes]
    rfl
  refine ⟨hcode, hspec, ?_⟩
  rw [hcode, hspec]
  intro hh
  exact absurd (Except.ok.inj hh) (by simp)

/-- A matching extension node with two coded pairs. -/
def okExt : Extension :=
  .mk (some "u") none (some (some [⟨"s", "c1", "D1"⟩, ⟨"s", "c2", "D2"⟩], ""))

/-- A concept carrying only `okExt`. -/
def okConcept : Concept := ⟨"V1", "Disp", none, some [okExt]⟩

/-- C1 (witness): the amended resolver theorem applied at a concrete concept. -/
theorem extension_resolver_amended_witness :
    getExtensionValueByUrl okConcept "u" = .ok (specResolveAmended [okExt] "u") :=
  (extension_resolver_amended okConcept "u" [okExt] rfl).1

/-! ## Claim C4 -/

/-- Normalizing an absent url does not change the url comparison. -/
theorem urlMatches_fillUrl (u : Option String) (t : String) :
    urlMatches (fillUrl u) t = urlMatches u t := by
  cases u with
  | none => simp [urlMatches, fillUrl]
  | some s => simp [urlMatches, fillUrl]

/-- Normalizing an absent coded value or coding list does not change the
collected pairs of a node. -/
theorem codedPairs_fillVcc (u u' : Option String) (ch ch' : Option (List Extension))
    (v : Option (Option (List Coding) × String)) :
    codedPairs (Extension.mk u' ch' (fillVcc v)) = codedPairs (Extension.mk u ch v) := by
  cases v with
  | none => simp [codedPairs, fillVcc]
  | some p =>
    rcases p with ⟨cs, txt⟩
    cases cs with
    | none => simp [codedPairs, fillVcc]
    | some l => simp [codedPairs, fillVcc]

/-- Normalizing absent sub-structures to empty ones leaves the collected pairs
of the whole search unchanged: the code treats absent sub-trees as empty. -/
theorem collectPairs_findExtensions_fill (t : String) (es : List Extension) :
    collectPairs (findExtensions t (fillExts es)) =
      collectPairs (findExtensions t es) := by
  induction es using findExtensions.induct t with
  | case1 => simp [fillExts]
  | case2 u ch v rest ih1 ih2 =>
    cases ch with
    | none =>
      simp only [fillExts, findExtensions, urlMatches_fillUrl]
      by_cases hm : urlMatches u t
      · simp only [hm, if_true, collectPairs, List.flatMap_cons, List.flatMap_append,
          List.flatMap_nil]
        rw [codedPairs_fillVcc u (fillUrl u) none (some []) v]
        simp only [collectPairs] at ih2
        simp [ih2]
      · simp only [hm, if_false]
        have := ih2
        simp only [collectPairs] at this
        simpa [collectPairs] using this
    | some cs =>
      have ih1' : collectPairs (findExtensions t (fillExts cs)) =
          collectPairs (findExtensions t cs) := ih1
      simp only [fillExts, findExtensions, urlMatches_fillUrl]
      by_cases hm : urlMatches u t
      · simp only [hm, if_true, collectPairs, List.flatMap_cons, List.flatMap_append]
        simp only [collectPairs] at ih1' ih2
        rw [codedPairs_fillVcc u (fillUrl u) (some cs) (some (fillExts cs)) v]
        simp [ih1', ih2]
      · simp only [hm, if_false, collectPairs, List.flatMap_append]
        simp only [collectPairs] at ih1' ih2
        simp [ih1', ih2]

/-- C4 (amended): for every Concept whose root extension array is present and
every target url, the resolver returns a result, and absent or malformed
sub-structures — node urls, child extension arrays, coded values, coding lists
— are treated exactly as empty ones.  (When the root extension array itself is
absent, the resolver throws a type error; see the counterexample.) -/
theorem resolver_totality_amended (c : Concept) (t : String)
    (es : List Extension) (h : c.extension = some es) :
    (∃ r, getExtensionValueByUrl c t = .ok r) ∧
    resolveExtensions (fillExts es) t = resolveExtensions es t := by
  constructor
  · refine ⟨resolveExtensions es t, ?_⟩
    unfold getExtensionValueByUrl
    rw [h]
  · unfold resolveExtensions
    rw [collectPairs_findExtensions_fill]

/-- A concept whose root extension array is absent. -/
def noExtConcept : Concept := ⟨"V", "D", none, none⟩

/-- C4 (counterexample): on a concept without a root extension array the
resolver does not return a result — the unguarded `concept.extension` access
makes `extensions.forEach` throw a type error. -/
theorem resolver_raises_counterexample :
    getExtensionValueByUrl noExtConcept "u" =
      .error "TypeError: Cannot read properties of undefined (reading forEach)" := rfl

/-- C4 (witness): the amended totality theorem applied at a concrete concept. -/
theorem resolver_totality_amended_witness :
    resolveExtensions (fillExts [okExt]) "u" = resolveExtensions [okExt] "u" :=
  (resolver_totality_amended okConcept "u" [okExt] rfl).2

/-! ## Claim C5 -/

/-- C5 (amended): display selection returns the value of the first Designation
whose language tag equals the requested language and whose use descriptor has
the naming-system url and the requested use-code, PROVIDED that value is
non-empty; it returns the raw default display string when no Designation
matches — and also, because the fallback uses JavaScript `||`, when the
matched Designation's value is the empty string.  Every returned value indeed
comes from a Designation satisfying all the matching conditions. -/
theorem display_selection_amended (c : Concept) (lang code : String) :
    (∀ v, getDisplayName c lang code = some v → v ≠ "" →
      selectDisplay c lang code = v) ∧
    (getDisplayName c lang code = none →
      selectDisplay c lang code = c.display) ∧
    (getDisplayName c lang code = some "" →
      selectDisplay c lang code = c.display) ∧
    (∀ v, getDisplayName c lang code = some v →
      ∃ ds d, c.designation = some ds ∧ d ∈ ds ∧ d.language = lang ∧
        (∃ u, d.use = some u ∧ u.code = code ∧ u.system = displayTermsSystem) ∧
        d.value = v) := by
  refine ⟨?_, ?_, ?_, ?_⟩
  · intro v hv hne
    unfold selectDisplay jsOrStr
    rw [hv]
    simp [hne]
  · intro hn
    unfold selectDisplay jsOrStr
    rw [hn]
  · intro hv
    unfold selectDisplay jsOrStr
    rw [hv]
    simp
  · intro v hv
    unfold getDisplayName at hv
    cases hds : c.designation with
    | none => rw [hds] at hv; exact absurd hv (by simp)
    | some ds =>
      rw [hds] at hv
      rcases Option.map_eq_some'.mp hv with ⟨d, hfind, hval⟩
      have hmem : d ∈ ds := List.mem_of_find?_eq_some hfind
      have hpred := List.find?_some hfind
      simp only [Bool.and_eq_true, beq_iff_eq] at hpred
      obtain ⟨hlang, huse⟩ := hpred
      cases hu : d.use with
      | none => rw [hu] at huse; simp at huse
      | some u =>
        rw [hu] at huse
        simp only [Bool.and_eq_true, beq_iff_eq] at huse
        exact ⟨ds, d, rfl, hmem, hlang, ⟨u, hu, huse.1, huse.2⟩, hval⟩

/-- A concept carrying a matching Designation whose value is empty. -/
def emptyValConcept : Concept :=
  ⟨"V", "Dflt",
    some [⟨"en", some ⟨displayTermsSystem, "enDisplayTerm", "x"⟩, ""⟩], none⟩

/-- C5 (counterexample): a Designation matches the language and use descriptor
but carries the empty string as its value; the selection nevertheless returns
the raw default display, contradicting the claim that the default is returned
exactly when no Designation matches. -/
theorem display_selection_counterexample :
    getDisplayName emptyValConcept "en" "enDisplayTerm" = some "" ∧
    selectDisplay emptyValConcept "en" "enDisplayTerm" = "Dflt" ∧
    ("Dflt" : String) ≠ "" := by
  refine ⟨rfl, rfl, by decide⟩

/-- A concept with a matching, non-empty Designation. -/
def richConcept : Concept :=
  ⟨"V3", "DfltV3",
    some [⟨"en", some ⟨displayTermsSystem, "enDisplayTerm", "x"⟩, "Alpha"⟩], none⟩

/-- C5 (witness): the amended display-selection theorem applied at a concrete
concept with a matching, non-empty Designation. -/
theorem display_selection_amended_witness :
    selectDisplay richConcept "en" "enDisplayTerm" = "Alpha" :=
  (display_selection_amended richConcept "en" "enDisplayTerm").1 "Alpha" rfl
    (by decide)

/-! ## Claim C2 -/

/-- C2 (amended): in the simple variant, a record always carries its display
name and carries the disease/MAH fields exactly when the corresponding
resolution returned at least one entry, the fields being omitted otherwise.
In the bilingual variant, the display fields AND the disease fields are always
present — the disease fields hold empty lists (not omissions) when the disease
extension did not resolve — and only the MAH fields can be omitted: they are
attached exactly when both computed MAH names are non-empty, which requires a
non-empty MAH resolution.  The hypothesis on `d` is the shape invariant of
the extension resolver output (empty, or one non-empty mapping). -/
theorem record_field_presence (dl ml : LangLookup) (c : Concept)
    (d m : List AssocMap)
    (hd : d = [] ∨ ∃ d0, d = [d0] ∧ d0 ≠ []) :
    (buildSimpleRecord c d m).displayName = c.display ∧
    ((buildSimpleRecord c d m).disease.isSome ↔ d ≠ []) ∧
    ((buildSimpleRecord c d m).MAH.isSome ↔ m ≠ []) ∧
    (buildRecord dl ml c d m).diseaseEN.isSome ∧
    (buildRecord dl ml c d m).diseaseFR.isSome ∧
    ((buildRecord dl ml c d m).diseaseEN = some [] ↔ d = []) ∧
    ((buildRecord dl ml c d m).diseaseFR = some [] ↔ d = []) ∧
    ((buildRecord dl ml c d m).MAHEN.isSome ↔
      ((mahNames ml m).1 ≠ "" ∧ (mahNames ml m).2 ≠ "")) ∧
    ((buildRecord dl ml c d m).MAHFR.isSome ↔
      ((mahNames ml m).1 ≠ "" ∧ (mahNames ml m).2 ≠ "")) ∧
    ((buildRecord dl ml c d m).MAHEN.isSome → m ≠ []) ∧
    ((buildRecord dl ml c d m).MAHEN.isSome ↔ (buildRecord dl ml c d m).MAHFR.isSome) := by
  have hmahEN : (buildRecord dl ml c d m).MAHEN.isSome ↔
      ((mahNames ml m).1 ≠ "" ∧ (mahNames ml m).2 ≠ "") := by
    simp only [buildRecord]
    by_cases hc : (mahNames ml m).1 ≠ "" ∧ (mahNames ml m).2 ≠ ""
    · simp [hc]
    · simp [hc]
  have hmahFR : (buildRecord dl ml c d m).MAHFR.isSome ↔
      ((mahNames ml m).1 ≠ "" ∧ (mahNames ml m).2 ≠ "") := by
    simp only [buildRecord]
    by_cases hc : (mahNames ml m).1 ≠ "" ∧ (mahNames ml m).2 ≠ ""
    · simp [hc]
    · simp [hc]
  refine ⟨rfl, ?_, ?_, ?_, ?_, ?_, ?_, hmahEN, hmahFR, ?_, ?_⟩
  · unfold buildSimpleRecord
    by_cases h : d = []
    · subst h; simp
    · have hl : d.length > 0 := List.length_pos.mpr h
      simp only [hl, if_pos]
      simp [h]
  · unfold buildSimpleRecord
    by_cases h : m = []
    · subst h; simp
    · have hl : m.length > 0 := List.length_pos.mpr h
      simp only [hl, if_pos]
      simp [h]
  · simp [buildRecord]
  · simp [buildRecord]
  · rcases hd with rfl | ⟨d0, rfl, hne⟩
    · simp [buildRecord, diseaseNames]
    · rcases d0 with _ | ⟨⟨c0, v0⟩, rest⟩
      · exact absurd rfl hne
      · simp [buildRecord, diseaseNames]
  · rcases hd with rfl | ⟨d0, rfl, hne⟩
    · simp [buildRecord, diseaseNames]
    · rcases d0 with _ | ⟨⟨c0, v0⟩, rest⟩
      · exact absurd rfl hne
      · simp [buildRecord, diseaseNames]
  · intro hsome hm
    subst hm
    rw [hmahEN] at hsome
    exact hsome.1 rfl
  · rw [hmahEN, hmahFR]

/-- A concept with an empty root extension array, so that neither the disease
nor the MAH extension resolves. -/
def plainConcept : Concept := ⟨"V2", "DispV2", none, some []⟩

/-- C2 (counterexample): in the bilingual variant, a concept whose disease
extension resolution returned no entry still receives a present `diseaseEN`
field (holding the empty list); the field is not omitted from the record. -/
theorem record_field_presence_counterexample :
    getExtensionValueByUrl plainConcept diseaseUrl = .ok [] ∧
    (conceptRecord [] [] plainConcept).toOption.map (fun r => r.diseaseEN) =
      some (some []) := by
  have hres : getExtensionValueByUrl plainConcept diseaseUrl = .ok [] := by
    simp only [getExtensionValueByUrl, plainConcept, resolveExtensions, findExtensions]
    rfl
  have hmah : getExtensionValueByUrl plainConcept mahUrl = .ok [] := by
    simp only [getExtensionValueByUrl, plainConcept, resolveExtensions, findExtensions]
    rfl
  refine ⟨hres, ?_⟩
  unfold conceptRecord
  rw [hres, hmah]
  rfl

/-- C2 (witness): the record-field theorem applied at a concrete concept with
an empty disease resolution and a non-empty MAH resolution. -/
theorem record_field_presence_witness :
    ((buildSimpleRecord plainConcept [] [[("M1", "Acme")]]).disease.isSome ↔
      ([] : List AssocMap) ≠ []) ∧
    ((buildSimpleRecord plainConcept [] [[("M1", "Acme")]]).MAH.isSome ↔
      ([[("M1", "Acme")]] : List AssocMap) ≠ []) ∧
    ((buildRecord [] [] plainConcept [] [[("M1", "Acme")]]).MAHEN.isSome ↔
      ((mahNames [] [[("M1", "Acme")]]).1 ≠ "" ∧
       (mahNames [] [[("M1", "Acme")]]).2 ≠ "")) :=
  ⟨(record_field_presence [] [] plainConcept [] [[("M1", "Acme")]] (Or.inl rfl)).2.1,
   (record_field_presence [] [] plainConcept [] [[("M1", "Acme")]] (Or.inl rfl)).2.2.1,
   (record_field_presence [] [] plainConcept [] [[("M1", "Acme")]]
     (Or.inl rfl)).2.2.2.2.2.2.2.1⟩

/-! ## Characterization of the bilingual flattener -/

/-- The last element of a cons with a non-empty tail is the last of the tail. -/
theorem getLast?_cons_of_ne_nil {α : Type} (a : α) (l : List α) (h : l ≠ []) :
    (a :: l).getLast? = l.getLast? := by
  cases l with
  | nil => exact absurd rfl h
  | cons b l => exact List.getLast?_cons_cons

/-- Whenever a concept list is processed successfully, every concept in it has
a well-defined record. -/
theorem processConcepts_ok (dl ml : LangLookup) (cs : List Concept)
    (t tout : Table) (h : processConcepts dl ml t cs = .ok tout) :
    ∀ c ∈ cs, ∃ r, conceptRecord dl ml c = .ok r := by
  induction cs generalizing t with
  | nil => intro c hc; simp at hc
  | cons c0 cs ih =>
    intro c hc
    simp only [processConcepts] at h
    cases hpc : processConcept dl ml t c0 with
    | error e => rw [hpc] at h; exact absurd h (by simp)
    | ok t1 =>
      rw [hpc] at h
      rcases List.mem_cons.mp hc with rfl | hc2
      · unfold processConcept at hpc
        cases hcr : conceptRecord dl ml c with
        | error e => rw [hcr] at hpc; simp [Except.map] at hpc
        | ok r => exact ⟨r, rfl⟩
      · exact ih t1 h c hc2

/-- Key lookup after processing a concept list: the record of the last
processed concept carrying the key, else whatever the incoming table held. -/
theorem processConcepts_getKey (dl ml : LangLookup) (cs : List Concept)
    (t tout : Table) (h : processConcepts dl ml t cs = .ok tout) (k : String) :
    getKeyG tout k =
      (((cs.filter (fun c => c.code == k)).getLast?).bind
        (fun c => (conceptRecord dl ml c).toOption)).or (getKeyG t k) := by
  induction cs generalizing t with
  | nil =>
    simp only [processConcepts] at h
    cases h
    simp
  | cons c0 cs ih =>
    simp only [processConcepts] at h
    cases hpc : processConcept dl ml t c0 with
    | error e => rw [hpc] at h; exact absurd h (by simp)
    | ok t1 =>
      rw [hpc] at h
      unfold processConcept at hpc
      cases hcr : conceptRecord dl ml c0 with
      | error e => rw [hcr] at hpc; simp [Except.map] at hpc
      | ok r =>
        rw [hcr] at hpc
        have ht1 : t1 = setKeyG t c0.code r := by
          have := hpc
          simp [Except.map] at this
          exact this.symm
        have hrec := ih t1 h
        by_cases hk : c0.code = k
        · rw [List.filter_cons_of_pos (by simp [hk])]
          cases hfl : (cs.filter (fun c => c.code == k)).getLast? with
          | some q =>
            have hne : cs.filter (fun c => c.code == k) ≠ [] := by
              intro hnil; rw [hnil] at hfl; simp at hfl
            rw [getLast?_cons_of_ne_nil _ _ hne, hfl]
            rcases processConcepts_ok dl ml cs t1 tout h q
              (List.mem_of_mem_filter (List.mem_of_getLast?_eq_some hfl)) with ⟨rq, hrq⟩
            rw [hrec, hfl]
            simp [hrq, Except.toOption]
          | none =>
            have hnil : cs.filter (fun c => c.code == k) = [] := by
              simpa using hfl
            rw [hnil, hrec, hfl, ht1, getKeyG_setKeyG]
            simp [hk, hcr, Except.toOption]
        · rw [List.filter_cons_of_neg (by simp [hk])]
          rw [hrec, ht1, getKeyG_setKeyG, if_neg (fun hh => hk hh.symm)]

/-- Whenever an include list is processed successfully, every concept it
contributes has a well-defined record. -/
theorem processIncludes_ok (dl ml : LangLookup) (incs : List Include)
    (t tout : Table) (h : processIncludes dl ml t incs = .ok tout) :
    ∀ c ∈ incs.flatMap conceptsOfInclude, ∃ r, conceptRecord dl ml c = .ok r := by
  induction incs generalizing t with
  | nil => intro c hc; simp at hc
  | cons inc incs ih =>
    intro c hc
    simp only [processIncludes] at h
    cases hpi : processInclude dl ml t inc with
    | error e => rw [hpi] at h; exact absurd h (by simp)
    | ok t1 =>
      rw [hpi] at h
      rcases (by simpa [List.flatMap_cons] using hc :
          c ∈ conceptsOfInclude inc ∨ ∃ a ∈ incs, c ∈ conceptsOfInclude a) with
        hc1 | ⟨a, ha, hca⟩
      · unfold processInclude at hpi
        cases hco : inc.concept with
        | none =>
          unfold conceptsOfInclude at hc1
          rw [hco] at hc1
          simp at hc1
        | some cs =>
          rw [hco] at hpi
          unfold conceptsOfInclude at hc1
          rw [hco] at hc1
          exact processConcepts_ok dl ml cs t t1 hpi c (by simpa using hc1)
      · exact ih t1 h c (List.mem_flatMap.mpr ⟨a, ha, hca⟩)

/-- Key lookup after processing an include list. -/
theorem processIncludes_getKey (dl ml : LangLookup) (incs : List Include)
    (t tout : Table) (h : processIncludes dl ml t incs = .ok tout) (k : String) :
    getKeyG tout k =
      ((((incs.flatMap conceptsOfInclude).filter (fun c => c.code == k)).getLast?).bind
        (fun c => (conceptRecord dl ml c).toOption)).or (getKeyG t k) := by
  induction incs generalizing t with
  | nil =>
    simp only [processIncludes] at h
    cases h
    simp
  | cons inc incs ih =>
    simp only [processIncludes] at h
    cases hpi : processInclude dl ml t inc with
    | error e => rw [hpi] at h; exact absurd h (by simp)
    | ok t1 =>
      rw [hpi] at h
      have hrec := ih t1 h
      have hsplit : ((inc :: incs).flatMap conceptsOfInclude).filter
          (fun c => c.code == k) =
          (conceptsOfInclude inc).filter (fun c => c.code == k) ++
          (incs.flatMap conceptsOfInclude).filter (fun c => c.code == k) := by
        rw [List.flatMap_cons, List.filter_append]
      rw [hsplit, List.getLast?_append]
      have hfirst : getKeyG t1 k =
          ((((conceptsOfInclude inc).filter (fun c => c.code == k)).getLast?).bind
            (fun c => (conceptRecord dl ml c).toOption)).or (getKeyG t k) := by
        unfold processInclude at hpi
        cases hco : inc.concept with
        | none =>
          rw [hco] at hpi
          cases hpi
          unfold conceptsOfInclude
          rw [hco]
          simp
        | some cs =>
          rw [hco] at hpi
          unfold conceptsOfInclude
          rw [hco]
          simpa using processConcepts_getKey dl ml cs t t1 hpi k
      cases hfl : ((incs.flatMap conceptsOfInclude).filter
          (fun c => c.code == k)).getLast? with
      | some q =>
        rcases processIncludes_ok dl ml incs t1 tout h q
          (List.mem_of_mem_filter (List.mem_of_getLast?_eq_some hfl)) with ⟨rq, hrq⟩
        rw [hrec, hfl]
        simp [hrq, Except.toOption]
      | none =>
        rw [hrec, hfl, hfirst]
        simp

/-- Whenever the entry list is processed successfully, every contributed
concept has a well-defined record. -/
theorem processEntries_ok (dl ml : LangLookup) (es : List BundleEntry)
    (t tout : Table) (h : processEntries dl ml t es = .ok tout) :
    ∀ c ∈ es.flatMap conceptsOfEntry, ∃ r, conceptRecord dl ml c = .ok r := by
  induction es generalizing t with
  | nil => intro c hc; simp at hc
  | cons e0 es ih =>
    intro c hc
    simp only [processEntries] at h
    cases hpe : processEntry dl ml t e0 with
    | error e1 => rw [hpe] at h; exact absurd h (by simp)
    | ok t1 =>
      rw [hpe] at h
      rcases (by simpa [List.flatMap_cons] using hc :
          c ∈ conceptsOfEntry e0 ∨ ∃ a ∈ es, c ∈ conceptsOfEntry a) with
        hc1 | ⟨a, ha, hca⟩
      · unfold processEntry at hpe
        unfold conceptsOfEntry at hc1
        by_cases hv : isValueSet e0.resource.id
        · rw [if_pos hv] at hpe
          rw [if_pos hv] at hc1
          cases hcomp : e0.resource.compose with
          | none => simp only [hcomp] at hc1; simp at hc1
          | some comp =>
            simp only [hcomp] at hc1
            simp only [hcomp] at hpe
            cases hinc : comp.«include» with
            | none => simp only [hinc] at hc1; simp at hc1
            | some incs =>
              simp only [hinc] at hc1
              simp only [hinc] at hpe
              exact processIncludes_ok dl ml incs t t1 hpe c hc1
        · rw [if_neg hv] at hc1
          simp at hc1
      · exact ih t1 h c (List.mem_flatMap.mpr ⟨a, ha, hca⟩)

/-- Key lookup after processing the entry list. -/
theorem processEntries_getKey (dl ml : LangLookup) (es : List BundleEntry)
    (t tout : Table) (h : processEntries dl ml t es = .ok tout) (k : String) :
    getKeyG tout k =
      ((((es.flatMap conceptsOfEntry).filter (fun c => c.code == k)).getLast?).bind
        (fun c => (conceptRecord dl ml c).toOption)).or (getKeyG t k) := by
  induction es generalizing t with
  | nil =>
    simp only [processEntries] at h
    cases h
    simp
  | cons e0 es ih =>
    simp only [processEntries] at h
    cases hpe : processEntry dl ml t e0 with
    | error e1 => rw [hpe] at h; exact absurd h (by simp)
    | ok t1 =>
      rw [hpe] at h
      have hrec := ih t1 h
      have hsplit : ((e0 :: es).flatMap conceptsOfEntry).filter
          (fun c => c.code == k) =
          (conceptsOfEntry e0).filter (fun c => c.code == k) ++
          (es.flatMap conceptsOfEntry).filter (fun c => c.code == k) := by
        rw [List.flatMap_cons, List.filter_append]
      rw [hsplit, List.getLast?_append]
      have hfirst : getKeyG t1 k =
          ((((conceptsOfEntry e0).filter (fun c => c.code == k)).getLast?).bind
            (fun c => (conceptRecord dl ml c).toOption)).or (getKeyG t k) := by
        unfold processEntry at hpe
        unfold conceptsOfEntry
        by_cases hv : isValueSet e0.resource.id
        · rw [if_pos hv] at hpe
          rw [if_pos hv]
          cases hcomp : e0.resource.compose with
          | none =>
            simp only [hcomp] at hpe
            cases hpe
            simp [hcomp]
          | some comp =>
            simp only [hcomp] at hpe
            cases hinc : comp.«include» with
            | none =>
              simp only [hinc] at hpe
              cases hpe
              simp [hcomp, hinc]
            | some incs =>
              simp only [hinc] at hpe
              simpa [hcomp, hinc] using processIncludes_getKey dl ml incs t t1 hpe k
        · rw [if_neg hv] at hpe
          cases hpe
          rw [if_neg hv]
          simp
      cases hfl : ((es.flatMap conceptsOfEntry).filter
          (fun c => c.code == k)).getLast? with
      | some q =>
        rcases processEntries_ok dl ml es t1 tout h q
          (List.mem_of_mem_filter (List.mem_of_getLast?_eq_some hfl)) with ⟨rq, hrq⟩
        rw [hrec, hfl]
        simp [hrq, Except.toOption]
      | none =>
        rw [hrec, hfl, hfirst]
        simp

/-! ## Claims C7 and C8 -/

/-- C8: when the bilingual flattener succeeds, the table entry under any code
is exactly the record built from the LAST processed concept carrying that code
— a later concept silently replaces the record of an earlier one sharing its
code, with no merging and no conflict signal. -/
theorem table_last_concept_wins (data : Data) (dl ml : LangLookup)
    (table : Table) (h : parseNVCBundle data dl ml = .ok table) (k : String) :
    getKeyG table k =
      (((conceptsOf data).filter (fun c => c.code == k)).getLast?).bind
        (fun c => (conceptRecord dl ml c).toOption) := by
  unfold parseNVCBundle at h
  have hchar := processEntries_getKey dl ml data.entry [] table h k
  unfold conceptsOf
  rw [hchar]
  simp [getKeyG]

/-- C7: when the bilingual flattener succeeds, the key set of the output table
is exactly the set of codes of concepts belonging to ValueSets whose id is a
recognized vaccine kind; concepts of any other resource (Disease,
MarketAuthorizationHolder, ...) produce no entry. -/
theorem table_keys_exactly_recognized (data : Data) (dl ml : LangLookup)
    (table : Table) (h : parseNVCBundle data dl ml = .ok table) (k : String) :
    (getKeyG table k).isSome ↔
      k ∈ (conceptsOf data).map (fun c => c.code) := by
  unfold parseNVCBundle at h
  have hchar := processEntries_getKey dl ml data.entry [] table h k
  have hok := processEntries_ok dl ml data.entry [] table h
  unfold conceptsOf
  rw [hchar]
  simp only [getKeyG, List.find?_nil, Option.map_none', Option.or_none]
  cases hfl : ((data.entry.flatMap conceptsOfEntry).filter
      (fun c => c.code == k)).getLast? with
  | none =>
    simp only [hfl, Option.none_bind]
    constructor
    · intro hs
      simp at hs
    · intro hmem
      exfalso
      rcases List.mem_map.mp hmem with ⟨c, hcmem, hck⟩
      have hcf : c ∈ (data.entry.flatMap conceptsOfEntry).filter
          (fun c => c.code == k) :=
        List.mem_filter.mpr ⟨hcmem, by simp [hck]⟩
      rw [List.getLast?_eq_none_iff] at hfl
      rw [hfl] at hcf
      simp at hcf
  | some c1 =>
    have hc1f : c1 ∈ (data.entry.flatMap conceptsOfEntry).filter
        (fun c => c.code == k) := List.mem_of_getLast?_eq_some hfl
    have hc1mem : c1 ∈ data.entry.flatMap conceptsOfEntry :=
      List.mem_of_mem_filter hc1f
    have hc1k : c1.code = k := by
      have := (List.mem_filter.mp hc1f).2
      simpa using this
    rcases hok c1 hc1mem with ⟨r, hr⟩
    simp only [hfl, Option.some_bind]
    constructor
    · intro hs
      exact List.mem_map.mpr ⟨c1, hc1mem, hc1k⟩
    · intro hmem
      simp [hr, Except.toOption]

/-- A second concept sharing the code of `plainConcept`, processed later. -/
def dup2Concept : Concept := ⟨"V2", "DispLater", none, some []⟩

/-- A Generic ValueSet holding `plainConcept` and then `dup2Concept`. -/
def vsGeneric : ValueSet :=
  ⟨"Generic", ⟨"7", "2024-01-01"⟩,
    some ⟨some [⟨"sys", "1.0", some [plainConcept, dup2Concept]⟩]⟩⟩

/-- A Disease ValueSet holding one concept, which the flattener must skip. -/
def vsDisease : ValueSet :=
  ⟨"Disease", ⟨"7", "2024-01-01"⟩,
    some ⟨some [⟨"dsys", "1.0", some [⟨"D1", "Measles", none, some []⟩]⟩]⟩⟩

/-- A concrete bundle with one recognized and one unrecognized ValueSet. -/
def data0 : Data := ⟨⟨"7", "2024-01-01"⟩, [⟨"u0", vsGeneric⟩, ⟨"u1", vsDisease⟩]⟩

/-- The table the bilingual flattener produces from `data0` with empty
auxiliary lookups. -/
def tbl0 : Table :=
  [("V2", ⟨"DispLater", "DispLater", some [], some [], none, none⟩)]

/-- Evaluation of the flattener on the concrete bundle `data0`. -/
theorem parse_data0 : parseNVCBundle data0 [] [] = .ok tbl0 := by
  simp only [parseNVCBundle, data0, processEntries, processEntry, vsGeneric,
    vsDisease, processIncludes, processInclude, processConcepts, processConcept,
    conceptRecord, getExtensionValueByUrl, plainConcept, dup2Concept,
    resolveExtensions, findExtensions, collectPairs, codedPairs, buildValObject,
    setKeyG, buildRecord, diseaseNames, mahNames, selectDisplay, getDisplayName,
    jsOrStr, isValueSet, tbl0]
  rfl

/-- C8 (witness): the last-concept-wins theorem applied to the concrete bundle
`data0`, whose Generic ValueSet holds two concepts sharing the code V2. -/
theorem table_last_concept_wins_witness :
    getKeyG tbl0 "V2" =
      (((conceptsOf data0).filter (fun c => c.code == "V2")).getLast?).bind
        (fun c => (conceptRecord [] [] c).toOption) :=
  table_last_concept_wins data0 [] [] tbl0 parse_data0 "V2"

/-- C7 (witness): the exact-key-set theorem applied to the concrete bundle
`data0`, at a recognized code and at the code of the skipped Disease concept. -/
theorem table_keys_exactly_recognized_witness :
    ((getKeyG tbl0 "V2").isSome ↔
      "V2" ∈ (conceptsOf data0).map (fun c => c.code)) ∧
    ((getKeyG tbl0 "D1").isSome ↔
      "D1" ∈ (conceptsOf data0).map (fun c => c.code)) :=
  ⟨table_keys_exactly_recognized data0 [] [] tbl0 parse_data0 "V2",
   table_keys_exactly_recognized data0 [] [] tbl0 parse_data0 "D1"⟩

/-! ## Claim C9 -/

/-- Permuting siblings anywhere in the forest permutes the collected pairs. -/
theorem codedPairs_mk_children (u : Option String)
    (ch ch' : Option (List Extension)) (v : Option (Option (List Coding) × String)) :
    codedPairs (Extension.mk u ch v) = codedPairs (Extension.mk u ch' v) := rfl

theorem sibPerm_collectPairs (t : String) (l l' : List Extension)
    (hp : SibPerm l l') :
    (collectPairs (findExtensions t l)).Perm (collectPairs (findExtensions t l')) := by
  induction hp with
  | perm hperm =>
    rw [collectPairs_findExtensions_flatMap, collectPairs_findExtensions_flatMap]
    exact List.Perm.flatMap_right _ hperm
  | @congr u v c c' l1 l1' hc hl ihc ihl =>
    rw [findExtensions_cons t (Extension.mk u (some c) v) l1, collectPairs_append,
      findExtensions_cons t (Extension.mk u (some c') v) l1', collectPairs_append]
    refine List.Perm.append ?_ ihl
    simp only [findExtensions, List.append_nil]
    rw [collectPairs_append, collectPairs_append]
    by_cases hm : urlMatches u t
    · simp only [hm, if_true]
      rw [show collectPairs [Extension.mk u (some c) v] =
        codedPairs (Extension.mk u (some c) v) from by simp [collectPairs]]
      rw [show collectPairs [Extension.mk u (some c') v] =
        codedPairs (Extension.mk u (some c') v) from by simp [collectPairs]]
      rw [codedPairs_mk_children u (some c) (some c') v]
      exact List.Perm.append (List.Perm.refl _) ihc
    · simp only [hm, Bool.false_eq_true, if_false]
      simpa [collectPairs] using ihc
  | @keep e l1 l1' hl ihl =>
    rw [findExtensions_cons t e l1, collectPairs_append,
      findExtensions_cons t e l1', collectPairs_append]
    exact List.Perm.append (List.Perm.refl _) ihl
  | trans h1 h2 ih1 ih2 =>
    exact List.Perm.trans ih1 ih2

/-- Under a consistent pair list, the last-pair lookup is invariant under
permutation of the pairs. -/
theorem lastAssoc_perm_consistent (pairs pairs' : List (String × String))
    (hp : pairs.Perm pairs') (hc : Consistent pairs) (k : String) :
    lastAssoc pairs k = lastAssoc pairs' k := by
  unfold lastAssoc
  have hpf : (pairs.filter (fun p => p.1 == k)).Perm
      (pairs'.filter (fun p => p.1 == k)) := hp.filter _
  cases hfl : (pairs.filter (fun p => p.1 == k)).getLast? with
  | none =>
    rw [List.getLast?_eq_none_iff] at hfl
    have : pairs'.filter (fun p => p.1 == k) = [] := by
      rw [hfl] at hpf
      exact hpf.symm.eq_nil
    rw [this]
    simp
  | some p =>
    have hpmem : p ∈ pairs.filter (fun p => p.1 == k) :=
      List.mem_of_getLast?_eq_some hfl
    have hne' : pairs'.filter (fun p => p.1 == k) ≠ [] := by
      intro hnil
      rw [hnil] at hpf
      rw [hpf.eq_nil] at hpmem
      simp at hpmem
    cases hfl' : (pairs'.filter (fun p => p.1 == k)).getLast? with
    | none => exact absurd (List.getLast?_eq_none_iff.mp hfl') hne'
    | some q =>
      have hqmem : q ∈ pairs'.filter (fun p => p.1 == k) :=
        List.mem_of_getLast?_eq_some hfl'
      have hqmem2 : q ∈ pairs.filter (fun p => p.1 == k) := hpf.mem_iff.mpr hqmem
      have hpk : p.1 = k := by simpa using (List.mem_filter.mp hpmem).2
      have hqk : q.1 = k := by simpa using (List.mem_filter.mp hqmem2).2
      have heq : p.2 = q.2 :=
        hc p (List.mem_of_mem_filter hpmem) q (List.mem_of_mem_filter hqmem2)
          (by rw [hpk, hqk])
      simp [heq]

/-- C9 (amended): the resolver result is unchanged, as a key-value lookup,
under any permutation of sibling extensions anywhere in the extension tree,
PROVIDED the coded values collected from the matching extensions are
consistent (no code is assigned two different displays); within one call,
duplicate coded values sharing a code resolve last-write-wins.  Without the
consistency proviso the claim fails, see the counterexample. -/
theorem resolver_order_independence_amended (t : String) (c c' : Concept)
    (es es' : List Extension) (h : c.extension = some es)
    (h' : c'.extension = some es') (hp : SibPerm es es')
    (hc : Consistent (collectPairs (findExtensions t es))) :
    ((getExtensionValueByUrl c t = .ok [] ∧ getExtensionValueByUrl c' t = .ok []) ∨
      (∃ m m', getExtensionValueByUrl c t = .ok [m] ∧
        getExtensionValueByUrl c' t = .ok [m'] ∧
        ∀ k, getKeyG m k = getKeyG m' k)) ∧
    (∀ m, getExtensionValueByUrl c t = .ok [m] →
      ∀ k, getKeyG m k = lastAssoc (collectPairs (findExtensions t es)) k) := by
  have hres : getExtensionValueByUrl c t = .ok (resolveExtensions es t) := by
    unfold getExtensionValueByUrl; rw [h]
  have hres' : getExtensionValueByUrl c' t = .ok (resolveExtensions es' t) := by
    unfold getExtensionValueByUrl; rw [h']
  have hpairs := sibPerm_collectPairs t es es' hp
  constructor
  · by_cases hnil : collectPairs (findExtensions t es) = []
    · left
      have hnil' : collectPairs (findExtensions t es') = [] := by
        rw [hnil] at hpairs
        exact hpairs.symm.eq_nil
      rw [hres, hres', (resolveExtensions_eq_nil_iff es t).mpr hnil,
        (resolveExtensions_eq_nil_iff es' t).mpr hnil']
      exact ⟨rfl, rfl⟩
    · right
      have hnil' : collectPairs (findExtensions t es') ≠ [] := by
        intro hh
        rw [hh] at hpairs
        exact hnil hpairs.eq_nil
      refine ⟨buildValObject (collectPairs (findExtensions t es)),
        buildValObject (collectPairs (findExtensions t es')), ?_, ?_, ?_⟩
      · rw [hres, resolveExtensions_eq_singleton es t hnil]
      · rw [hres', resolveExtensions_eq_singleton es' t hnil']
      · intro k
        rw [getKeyG_buildValObject, getKeyG_buildValObject]
        exact lastAssoc_perm_consistent _ _ hpairs hc k
  · intro m hm k
    by_cases hnil : collectPairs (findExtensions t es) = []
    · rw [hres, (resolveExtensions_eq_nil_iff es t).mpr hnil] at hm
      exact absurd (Except.ok.inj hm) (by simp)
    · rw [hres, resolveExtensions_eq_singleton es t hnil] at hm
      have hm' : m = buildValObject (collectPairs (findExtensions t es)) :=
        ((List.cons.inj (Except.ok.inj hm)).1).symm
      rw [hm', getKeyG_buildValObject]

/-- A matching extension assigning display A to code c. -/
def permExtA : Extension := .mk (some "w") none (some (some [⟨"s", "c", "A"⟩], ""))

/-- A matching extension assigning display B to the same code c. -/
def permExtB : Extension := .mk (some "w") none (some (some [⟨"s", "c", "B"⟩], ""))

/-- A concept with the two conflicting siblings in one order. -/
def permConcept1 : Concept := ⟨"P", "D", none, some [permExtA, permExtB]⟩

/-- The same concept with the two siblings swapped. -/
def permConcept2 : Concept := ⟨"P", "D", none, some [permExtB, permExtA]⟩

/-- C9 (counterexample): swapping two sibling extensions that assign different
displays to the same code changes the resolver result — last-write-wins makes
the outcome depend on sibling order, so resolution is NOT order-independent as
claimed. -/
theorem resolver_order_counterexample :
    SibPerm [permExtA, permExtB] [permExtB, permExtA] ∧
    getExtensionValueByUrl permConcept1 "w" = .ok [[("c", "B")]] ∧
    getExtensionValueByUrl permConcept2 "w" = .ok [[("c", "A")]] ∧
    getExtensionValueByUrl permConcept1 "w" ≠
      getExtensionValueByUrl permConcept2 "w" := by
  have h1 : getExtensionValueByUrl permConcept1 "w" = .ok [[("c", "B")]] := by
    simp only [getExtensionValueByUrl, permConcept1, permExtA, permExtB,
      resolveExtensions, findExtensions]
    rfl
  have h2 : getExtensionValueByUrl permConcept2 "w" = .ok [[("c", "A")]] := by
    simp only [getExtensionValueByUrl, permConcept2, permExtA, permExtB,
      resolveExtensions, findExtensions]
    rfl
  refine ⟨SibPerm.perm (List.Perm.swap permExtB permExtA []), h1, h2, ?_⟩
  rw [h1, h2]
  intro hh
  have := List.cons.inj (Except.ok.inj hh)
  have hlist : [("c", "B")] = [("c", "A")] := this.1
  have := (List.cons.inj hlist).1
  simp at this

/-- A pair of sibling extensions with distinct codes. -/
def permExtC : Extension := .mk (some "w") none (some (some [⟨"s", "d", "C"⟩], ""))

/-- A concept with two consistent siblings. -/
def permConcept3 : Concept := ⟨"P", "D", none, some [permExtA, permExtC]⟩

/-- The same concept with the consistent siblings swapped. -/
def permConcept4 : Concept := ⟨"P", "D", none, some [permExtC, permExtA]⟩

/-- C9 (witness): the amended order-independence theorem applied at a concrete
concept whose matching siblings assign consistent displays. -/
theorem resolver_order_independence_amended_witness :
    ((getExtensionValueByUrl permConcept3 "w" = .ok [] ∧
      getExtensionValueByUrl permConcept4 "w" = .ok []) ∨
    (∃ m m', getExtensionValueByUrl permConcept3 "w" = .ok [m] ∧
      getExtensionValueByUrl permConcept4 "w" = .ok [m'] ∧
      ∀ k, getKeyG m k = getKeyG m' k)) :=
  (resolver_order_independence_amended "w" permConcept3 permConcept4
    [permExtA, permExtC] [permExtC, permExtA] rfl rfl
    (SibPerm.perm (List.Perm.swap permExtC permExtA []))
    (by
      have hpairs : collectPairs (findExtensions "w" [permExtA, permExtC]) =
          [("c", "A"), ("d", "C")] := by
        simp only [collectPairs, findExtensions, permExtA, permExtC]
        rfl
      rw [hpairs]
      intro p hp q hq hpq
      fin_cases hp <;> fin_cases hq <;> simp_all)).1

/-! ## Claim C6 -/

/-- C6: the simple variant reads the persisted version identifier (a missing
or unreadable marker file counts as no previous version), compares it to the
fetched version by exact string equality, and (when the transform succeeds)
writes the new table and marker exactly when they differ; when they are equal
it writes nothing and reports no change. -/
theorem version_gated_writer (data : Data) (fs : SimpleFS) :
    ((fs.versionFile = FileState.absent ∨ fs.versionFile = FileState.corrupt) →
      readStoredVersion fs = none) ∧
    (readStoredVersion fs = some data.meta.versionId →
      mainSimple data fs = (fs, RunOutcome.noChange (some data.meta.versionId))) ∧
    (readStoredVersion fs ≠ some data.meta.versionId →
      ∀ tb, parseNVCBundleS data = .ok tb →
        mainSimple data fs =
          ({ versionFile := FileState.valid data.meta.versionId,
             bundleFile := FileState.valid (data.meta.versionId, tb) },
           RunOutcome.updated data.meta.versionId)) := by
  refine ⟨?_, ?_, ?_⟩
  · intro h
    unfold readStoredVersion
    rcases h with h | h <;> rw [h]
  · intro h
    unfold mainSimple
    rw [h]
    simp
  · intro h tb htb
    unfold mainSimple
    rw [if_pos h, htb]

/-- A simple-variant filesystem whose stored version matches `data0`. -/
def fsS : SimpleFS := ⟨FileState.valid "7", FileState.absent⟩

/-- C6 (witness): the version-gate theorem applied at a concrete bundle whose
version equals the stored marker — nothing is written, no change reported. -/
theorem version_gated_writer_witness :
    mainSimple data0 fsS = (fsS, RunOutcome.noChange (some "7")) :=
  (version_gated_writer data0 fsS).2.1 rfl

/-! ## Claims C3 and C10: the main routine of the bilingual variant -/

/-- A fold looking for a matching entry returns its accumulator when no entry
matches. -/
theorem foldl_find_resource_none (p : String → Bool) (l : List BundleEntry)
    (acc : Option ValueSet) (h : ∀ e ∈ l, p e.resource.id = false) :
    l.foldl (fun acc e => if p e.resource.id then some e.resource else acc) acc
      = acc := by
  induction l generalizing acc with
  | nil => rfl
  | cons e l ih =>
    rw [List.foldl_cons]
    rw [h e (by simp), if_neg (by simp)]
    exact ih acc (fun e1 he1 => h e1 (List.mem_cons_of_mem e he1))

/-- When no entry of the bundle satisfies the id predicate, no resource is
found. -/
theorem findLastResource_none (data : Data) (p : String → Bool)
    (h : ∀ e ∈ data.entry, p e.resource.id = false) :
    findLastResource data p = none := by
  unfold findLastResource
  exact foldl_find_resource_none p data.entry none h

/-- The disease.json state after a run: the fresh write when one happened,
the untouched previous state otherwise. -/
theorem mainBilingual_diseaseFile (data : Data) (fs : FS) :
    (mainBilingual data fs).1.diseaseFile =
      match writeResourceCompose (findLastResource data isValueSetDisease)
          fs.diseaseFile with
      | .ok df => df
      | .error _ => fs.diseaseFile := by
  unfold mainBilingual
  cases writeResourceCompose (findLastResource data isValueSetDisease)
      fs.diseaseFile with
  | error e => rfl
  | ok df =>
    simp only []
    cases writeResourceCompose (findLastResource data isValueSetMAH)
        fs.mahFile with
    | error e => rfl
    | ok mf =>
      simp only []
      cases computeDiseaseLookup { fs with diseaseFile := df, mahFile := mf } with
      | error e => rfl
      | ok dlk =>
        simp only []
        cases parseNVCBundle data dlk
            (computeMahLookup (findLastResource data isValueSetMAH)
              { fs with diseaseFile := df, mahFile := mf }) with
        | error e => rfl
        | ok tb => rfl

/-- A failing mah.json write aborts the run right after the disease write. -/
theorem mainBilingual_mahwrite_error (data : Data) (fs : FS)
    (df : FileState Compose) (e : String)
    (hw1 : writeResourceCompose (findLastResource data isValueSetDisease)
      fs.diseaseFile = .ok df)
    (hw2 : writeResourceCompose (findLastResource data isValueSetMAH)
      fs.mahFile = .error e) :
    mainBilingual data fs = ({ fs with diseaseFile := df }, some e) := by
  unfold mainBilingual
  rw [hw1]
  simp only []
  rw [hw2]

/-- A failing disease.json read or parse aborts the run after the two write
steps, before the bundle output or the version marker is written. -/
theorem mainBilingual_disease_error (data : Data) (fs : FS)
    (df mf : FileState Compose) (e : String)
    (hw1 : writeResourceCompose (findLastResource data isValueSetDisease)
      fs.diseaseFile = .ok df)
    (hw2 : writeResourceCompose (findLastResource data isValueSetMAH)
      fs.mahFile = .ok mf)
    (hdl : computeDiseaseLookup { fs with diseaseFile := df, mahFile := mf } =
      .error e) :
    mainBilingual data fs = ({ fs with diseaseFile := df, mahFile := mf }, some e) := by
  unfold mainBilingual
  rw [hw1]
  simp only []
  rw [hw2]
  simp only []
  rw [hdl]

/-- C3 (amended): when the MarketAuthorizationHolder resource is entirely
absent from the bundle, the MAH lookup is empty, mah.json is neither written
nor read, and the absence itself raises no error — but the output records do
NOT all omit the MAH fields: with an empty lookup the flattener falls back to
the raw display stored in the resolved MAH extension mapping, so a record
carries MAHEN/MAHFR exactly when its concept's MAH extension resolved with a
non-empty display under its first code. -/
theorem mah_absent_amended (data : Data) (fs : FS) (dl : LangLookup)
    (c : Concept) (d m : List AssocMap)
    (h : ∀ e ∈ data.entry, isValueSetMAH e.resource.id = false) :
    findLastResource data isValueSetMAH = none ∧
    computeMahLookup (findLastResource data isValueSetMAH) fs = [] ∧
    (mainBilingual data fs).1.mahFile = fs.mahFile ∧
    (buildRecord dl [] c d m).MAHEN = mahFallback m ∧
    (buildRecord dl [] c d m).MAHFR = mahFallback m := by
  have hM : findLastResource data isValueSetMAH = none :=
    findLastResource_none data isValueSetMAH h
  have hlookup : computeMahLookup (findLastResource data isValueSetMAH) fs = [] := by
    rw [hM]
    rfl
  have hfallback : (buildRecord dl [] c d m).MAHEN = mahFallback m ∧
      (buildRecord dl [] c d m).MAHFR = mahFallback m := by
    unfold buildRecord mahNames mahFallback
    cases m with
    | nil => simp
    | cons m0 mrest =>
      cases m0 with
      | nil => simp
      | cons p prest =>
        rcases p with ⟨c0, d0⟩
        simp only [getKeyG, List.find?_nil, Option.map_none', jsOrStr]
        by_cases hd0 : d0 = ""
        · subst hd0; simp
        · simp [hd0]
  refine ⟨hM, hlookup, ?_, hfallback.1, hfallback.2⟩
  unfold mainBilingual
  rw [hM]
  cases hw1 : writeResourceCompose (findLastResource data isValueSetDisease)
      fs.diseaseFile with
  | error e => rfl
  | ok df =>
    simp only [writeResourceCompose]
    cases hdl : computeDiseaseLookup
        { fs with diseaseFile := df, mahFile := fs.mahFile } with
    | error e => rfl
    | ok dlk =>
      simp only []
      cases hp : parseNVCBundle data dlk
          (computeMahLookup none
            { fs with diseaseFile := df, mahFile := fs.mahFile }) with
      | error e => rfl
      | ok tb => rfl

/-- An extension referencing a market-authorization holder. -/
def mahExt : Extension :=
  .mk (some mahUrl) none (some (some [⟨"s", "M1", "Acme"⟩], ""))

/-- A concept carrying the MAH extension. -/
def mahConcept : Concept := ⟨"VM", "DispVM", none, some [mahExt]⟩

/-- A Generic ValueSet holding `mahConcept`. -/
def vsGenericM : ValueSet :=
  ⟨"Generic", ⟨"9", "2024-02-02"⟩, some ⟨some [⟨"sys", "1.0", some [mahConcept]⟩]⟩⟩

/-- A bundle with no MarketAuthorizationHolder (and no Disease) resource. -/
def dataM : Data := ⟨⟨"9", "2024-02-02"⟩, [⟨"u0", vsGenericM⟩]⟩

/-- A filesystem with a stale but parseable disease.json holding no includes,
and no other files. -/
def fsM : FS := ⟨FileState.valid ⟨some []⟩, FileState.absent, FileState.absent,
  FileState.absent⟩

/-- The table the run on `dataM` produces. -/
def tblM : Table :=
  [("VM", ⟨"DispVM", "DispVM", some [], some [], some "Acme", some "Acme"⟩)]

/-- Evaluation of the bilingual main routine on `dataM` over `fsM`. -/
theorem main_dataM :
    mainBilingual dataM fsM =
      ({ fsM with bundleFile := FileState.valid ("9", tblM),
                  versionFile := FileState.valid "9" }, none) := by
  have hu1 : urlMatches (some mahUrl) diseaseUrl = false := by decide
  have hu2 : urlMatches (some mahUrl) mahUrl = true := by decide
  simp only [mainBilingual, dataM, fsM, vsGenericM, mahConcept, mahExt,
    findLastResource, isValueSetMAH, isValueSetDisease, List.foldl_cons,
    List.foldl_nil, writeResourceCompose, computeDiseaseLookup, readCompose,
    buildLangLookup, buildLookupIncludes, computeMahLookup, parseNVCBundle,
    processEntries, processEntry, isValueSet, processIncludes, processInclude,
    processConcepts, processConcept, conceptRecord, getExtensionValueByUrl,
    resolveExtensions, findExtensions, hu1, hu2, collectPairs, codedPairs,
    buildValObject, setKeyG, buildRecord, diseaseNames, mahNames, selectDisplay,
    getDisplayName, jsOrStr, getKeyG, tblM]
  rfl

/-- C3 (counterexample): with the MAH resource entirely absent from `dataM`,
the run succeeds without error, but the record of the concept whose MAH
extension resolved still carries MAHEN/MAHFR (the raw extension display
"Acme") — the claim that every record omits the MAH fields is false. -/
theorem mah_absent_counterexample :
    findLastResource dataM isValueSetMAH = none ∧
    (mainBilingual dataM fsM).2 = none ∧
    (mainBilingual dataM fsM).1.bundleFile = FileState.valid ("9", tblM) ∧
    (getKeyG tblM "VM").map (fun r => r.MAHEN) = some (some "Acme") := by
  refine ⟨?_, ?_, ?_, rfl⟩
  · apply findLastResource_none
    intro e he
    fin_cases he <;> rfl
  · rw [main_dataM]
  · rw [main_dataM]

/-- C3 (witness): the amended theorem applied at `dataM` and a concrete
resolved MAH mapping with a non-empty display. -/
theorem mah_absent_amended_witness :
    computeMahLookup (findLastResource dataM isValueSetMAH) fsM = [] ∧
    (buildRecord [] [] mahConcept [] [[("M1", "Acme")]]).MAHEN =
      mahFallback [[("M1", "Acme")]] :=
  ⟨(mah_absent_amended dataM fsM [] mahConcept [] [[("M1", "Acme")]]
      (by intro e he; fin_cases he <;> rfl)).2.1,
   (mah_absent_amended dataM fsM [] mahConcept [] [[("M1", "Acme")]]
      (by intro e he; fin_cases he <;> rfl)).2.2.2.1⟩

/-- C10: the bilingual run always builds the disease lookup by reading the
disease.json file; when the bundle carries no Disease resource the file is not
rewritten, so the lookup is built from the stale on-disk contents when they
are readable, and when the file is absent or unparseable the run aborts with
an error before writing the bundle output or the version marker.  (MAH absence
is tolerated; Disease absence is not.) -/
theorem disease_lookup_stale_or_abort (data : Data) (fs : FS)
    (h : ∀ e ∈ data.entry, isValueSetDisease e.resource.id = false) :
    findLastResource data isValueSetDisease = none ∧
    (mainBilingual data fs).1.diseaseFile = fs.diseaseFile ∧
    (∀ comp, fs.diseaseFile = FileState.valid comp →
      computeDiseaseLookup fs = buildLangLookup comp) ∧
    ((fs.diseaseFile = FileState.absent ∨ fs.diseaseFile = FileState.corrupt) →
      (mainBilingual data fs).2 ≠ none ∧
      (mainBilingual data fs).1.bundleFile = fs.bundleFile ∧
      (mainBilingual data fs).1.versionFile = fs.versionFile) := by
  have hD : findLastResource data isValueSetDisease = none :=
    findLastResource_none data isValueSetDisease h
  have hw1 : writeResourceCompose (findLastResource data isValueSetDisease)
      fs.diseaseFile = .ok fs.diseaseFile := by
    rw [hD]
    rfl
  refine ⟨hD, ?_, ?_, ?_⟩
  · rw [mainBilingual_diseaseFile, hw1]
  · intro comp hc
    unfold computeDiseaseLookup readCompose
    rw [hc]
    rfl
  · intro habs
    cases hw2 : writeResourceCompose (findLastResource data isValueSetMAH)
        fs.mahFile with
    | error e =>
      rw [mainBilingual_mahwrite_error data fs fs.diseaseFile e hw1 hw2]
      exact ⟨by simp, rfl, rfl⟩
    | ok mf =>
      have hdl : ∃ msg, computeDiseaseLookup
          { fs with diseaseFile := fs.diseaseFile, mahFile := mf } =
            .error msg := by
        unfold computeDiseaseLookup readCompose
        rcases habs with hc | hc <;>
          · simp only [hc]
            exact ⟨_, rfl⟩
      rcases hdl with ⟨msg, hdl⟩
      rw [mainBilingual_disease_error data fs fs.diseaseFile mf msg hw1 hw2 hdl]
      exact ⟨by simp, rfl, rfl⟩

/-- C10 (witness): the stale-or-abort theorem applied at the concrete bundle
without a Disease resource and the filesystem with a stale readable
disease.json. -/
theorem disease_lookup_stale_or_abort_witness :
    computeDiseaseLookup fsM = buildLangLookup ⟨some []⟩ :=
  (disease_lookup_stale_or_abort dataM fsM
    (by intro e he; fin_cases he <;> rfl)).2.2.1 ⟨some []⟩ rfl

end NVC
